import Mathlib

set_option maxHeartbeats 1000000
set_option maxRecDepth 8000

/-!
Shallow embedding of `src/main.py` (map_ts_dependencies): a regex lexer, a
function-boundary scan state machine, cross-file table aggregation, a
dependency filter, and a memoized longest-chain level calculator.

Modelling conventions:
* Python strings are `String` / `List Char`; `re` character classes are
  modelled over ASCII (the analysed surface syntax is ASCII).
* Python dicts are association lists with Python's insertion semantics
  (`dinsert` updates an existing key in place, else appends).
* Python sets are duplicate-free lists in insertion order.
* Exceptions are `Except String`; the carried string is the line printed by
  `FileContext.run` before the exception is re-raised.
* Unbounded recursion (`get_level`) takes an explicit fuel argument that
  models the Python call-stack budget: `none` means the recursion exceeded
  the budget (Python: `RecursionError`).
-/

deriving instance DecidableEq for Except

namespace MapTs

/-! ### Characters used by the token patterns -/

def lbrace : Char := Char.ofNat 123

def rbrace : Char := Char.ofNat 125

def slashChar : Char := '/'

def rChar : Char := 'r'

def nlChar : Char := '\n'

def spChar : Char := ' '

def rparChar : Char := ')'

def semiChar : Char := ';'

def usChar : Char := '_'

def sq : String := String.singleton (Char.ofNat 39)

/-- Character class `[_a-zA-Z]`, the first character of `IDENTIFIER_STR`. -/
def isIdentStart (c : Char) : Bool :=
  c = usChar || ('a' ≤ c && c ≤ 'z') || ('A' ≤ c && c ≤ 'Z')

/-- Character class `[_\w]` (ASCII): underscore, letter or digit. -/
def isIdentChar (c : Char) : Bool :=
  isIdentStart c || ('0' ≤ c && c ≤ '9')

/-! ### Regex alternative matchers

`token_spec` in `src/main.py` is one composed pattern; each named
alternative becomes one matcher returning the number of characters it
consumes from the given position.  Python `re` semantics are kept:
alternatives are tried left to right, `?` and `*` are greedy with
backtracking.  The backtracking points are expressed in
continuation-passing style: `firstSome` tries the greedy branch first and
falls back when the continuation of the whole remaining pattern fails. -/

def firstSome {α : Type} (a b : Option α) : Option α :=
  match a with
  | some v => some v
  | none => b

/-- Matcher for `IGNORE`, whose pattern in the source is `//[^\n]r`
(two slashes, one non-newline character, then the literal letter `r`). -/
def matchIGNORE (s : List Char) : Option Nat :=
  match s with
  | a :: b :: c :: d :: _ =>
    if a = slashChar && b = slashChar && c ≠ nlChar && d = rChar then some 4 else none
  | _ => none

/-- Matcher for `IDENTIFIER`, pattern `[_a-zA-Z][_\w]*` (greedy run). -/
def matchIDENTIFIER (s : List Char) : Option Nat :=
  match s with
  | [] => none
  | c :: rest =>
    if isIdentStart c then some (1 + (rest.takeWhile isIdentChar).length) else none

/-- Matcher for a single-character pattern (`OPEN_PAREN` is `{`,
`CLOSE_PAREN` is `}`, `NEWLINE` is `\n`). -/
def matchCHAR (target : Char) (s : List Char) : Option Nat :=
  match s with
  | [] => none
  | c :: _ => if c = target then some 1 else none

/-- Literal piece of a pattern: consume `lit` then run the continuation. -/
def matchLitK {α : Type} (lit : List Char) (s : List Char)
    (k : List Char → Option α) : Option α :=
  if lit.isPrefixOf s then k (s.drop lit.length) else none

/-- Optional literal `(lit)?`: greedily try to consume `lit`, falling back
to not consuming it when the rest of the pattern fails. -/
def matchOptLitK {α : Type} (lit : List Char) (s : List Char)
    (k : List Char → Option α) : Option α :=
  firstSome (matchLitK lit s k) (k s)

/-- Backtracking engine for a greedy character-class star: `rpref` is the
reversed portion of the maximal run still claimed by the star, `rest` the
input after it.  The continuation receives the (forward) consumed run and
the remaining input; on failure one character is given back at a time. -/
def starBackK {α : Type} (rpref : List Char) (rest : List Char)
    (k : List Char → List Char → Option α) : Option α :=
  match rpref with
  | [] => k [] rest
  | c :: rp =>
    match k (c :: rp).reverse rest with
    | some v => some v
    | none => starBackK rp (c :: rest) k

/-- Greedy star over a character class, `p*`, with backtracking. -/
def starClsK {α : Type} (p : Char → Bool) (s : List Char)
    (k : List Char → List Char → Option α) : Option α :=
  let pre := s.takeWhile p
  starBackK pre.reverse (s.drop pre.length) k

/-- Class `[^);]` used by the `FUNCSTART` suffix `[^);]*\)`. -/
def notStopTail (c : Char) : Bool := !(c = rparChar || c = semiChar)

/-- Class `[^{;]` used by the `FUNCSTART` suffix `[^{;]*{`. -/
def notBraceTail (c : Char) : Bool := !(c = lbrace || c = semiChar)

/-- Suffix `[^);]*\)([^{;]*{)` of the `FUNCSTART` pattern. -/
def matchTailK {α : Type} (s : List Char) (k : List Char → Option α) : Option α :=
  starClsK notStopTail s (fun _ s1 =>
    matchLitK [rparChar] s1 (fun s2 =>
      starClsK notBraceTail s2 (fun _ s3 =>
        matchLitK [lbrace] s3 k)))

/-- Named capture `(?P<funcname>[_a-zA-Z][_\w]*)`: greedy identifier with
backtracking; the continuation receives the captured name. -/
def matchNameK {α : Type} (s : List Char)
    (k : List Char → List Char → Option α) : Option α :=
  match s with
  | [] => none
  | c :: rest =>
    if isIdentStart c then
      starClsK isIdentChar rest (fun w r => k (c :: w) r)
    else none

/-- Qualifier part `(((export )?(async )?function)|((public|private)( async)?( static)?))`
of the `FUNCSTART` pattern, with Python's left-to-right alternative order
and greedy optionals. -/
def matchQualK {α : Type} (s : List Char) (k : List Char → Option α) : Option α :=
  firstSome
    (matchOptLitK "export ".toList s (fun s1 =>
      matchOptLitK "async ".toList s1 (fun s2 =>
        matchLitK "function".toList s2 k)))
    (firstSome
      (matchLitK "public".toList s (fun s1 =>
        matchOptLitK " async".toList s1 (fun s2 =>
          matchOptLitK " static".toList s2 k)))
      (matchLitK "private".toList s (fun s1 =>
        matchOptLitK " async".toList s1 (fun s2 =>
          matchOptLitK " static".toList s2 k))))

/-- Matcher for the whole `FUNCSTART` alternative:
`QUAL (?P<funcname>ID)[^);]*\)([^{;]*{)` with a literal space between the
qualifier and the name.  Returns the consumed length and the `funcname`
capture, exactly what `re.match` exposes of a match of this pattern. -/
def matchFUNCSTART (s : List Char) : Option (Nat × List Char) :=
  matchQualK s (fun s1 =>
    matchLitK [spChar] s1 (fun s2 =>
      matchNameK s2 (fun nm s3 =>
        matchTailK s3 (fun s4 => some (s.length - s4.length, nm)))))

/-! ### Token stream (`TOKEN_REGEX.finditer`) -/

inductive TKind where
  | IGNORE
  | FUNCSTART
  | IDENTIFIER
  | OPEN_PAREN
  | CLOSE_PAREN
  | NEWLINE
deriving DecidableEq, Repr

/-- Raw match from `finditer`: which alternative matched (`mo.lastgroup` is
the enclosing alternative's name since that group closes last), the matched
text (`mo.group()`) and the start offset (`mo.start()`). -/
structure RawTok where
  kind : TKind
  value : String
  start : Nat
deriving DecidableEq, Repr

/-- One position of the composed pattern: alternatives in the order of
`token_spec` (insertion order of the Python dict). -/
def tryMatchAt (s : List Char) : Option (TKind × Nat) :=
  match matchIGNORE s with
  | some n => some (TKind.IGNORE, n)
  | none =>
    match matchFUNCSTART s with
    | some (n, _) => some (TKind.FUNCSTART, n)
    | none =>
      match matchIDENTIFIER s with
      | some n => some (TKind.IDENTIFIER, n)
      | none =>
        match matchCHAR lbrace s with
        | some n => some (TKind.OPEN_PAREN, n)
        | none =>
          match matchCHAR rbrace s with
          | some n => some (TKind.CLOSE_PAREN, n)
          | none =>
            match matchCHAR nlChar s with
            | some n => some (TKind.NEWLINE, n)
            | none => none

/-- `finditer`: scan left to right, emitting the leftmost non-overlapping
matches, skipping characters no alternative matches.  Every alternative
consumes at least one character, so fuel `s.length` suffices. -/
def finditer : Nat → Nat → List Char → List RawTok
  | 0, _, _ => []
  | _, _, [] => []
  | fuel + 1, pos, s@(_ :: tail) =>
    match tryMatchAt s with
    | some (k, n) =>
      ⟨k, String.mk (s.take n), pos⟩ :: finditer fuel (pos + n) (s.drop n)
    | none => finditer fuel (pos + 1) tail

/-- Token stream of a file's full text. -/
def lexAll (s : List Char) : List RawTok := finditer s.length 0 s

/-! ### Tokens and per-file line/column tracking -/

/-- The `Token` named tuple of the source. -/
structure Token where
  kind : TKind
  value : String
  line : Nat
  column : Int
deriving DecidableEq, Repr

/-- The `line_num` / `line_start` fields of `FileContext`. -/
structure LineCtx where
  line_num : Nat
  line_start : Nat
deriving DecidableEq, Repr

/-- `GetNextToken._get_next_token`: build the `Token` from a raw match and
update the line tracking when the token is a newline. -/
def mkToken (lc : LineCtx) (rt : RawTok) : Token × LineCtx :=
  let col : Int := (rt.start : Int) - (lc.line_start : Int)
  let tok : Token := ⟨rt.kind, rt.value, lc.line_num, col⟩
  if rt.kind = TKind.NEWLINE then
    (tok, ⟨lc.line_num + 1, rt.start + rt.value.length⟩)
  else (tok, lc)

/-- Error line printed by `FileContext.run` when any exception escapes the
state machine. -/
def errorLine (path : String) (t : Token) : String :=
  "Error found after " ++ path ++ ":" ++ toString t.line ++ ":" ++
    toString t.column ++ ": " ++ sq ++ t.value ++ sq

/-- Notice printed by `ReadFunc.do` for a nested function declaration. -/
def nestedNotice (nm : String) (path : String) : String :=
  "Found nested function " ++ sq ++ nm ++ sq ++ " in " ++ sq ++ path ++ sq ++
    ". Determine dependencies manually"

/-- Name extraction in `FuncStartState.do` / `ReadFunc.do`: the source
re-applies the `FUNCSTART` pattern to the token's text and reads the
`funcname` group; `none` models the exception raised when the re-match
fails. -/
def extractName (v : String) : Option String :=
  (matchFUNCSTART v.toList).map (fun p => String.mk p.2)

/-! ### Python dict / set operations -/

/-- Python dict lookup `d[k]` (or `d.get(k)`): first matching key. -/
def dget? {κ α : Type} [BEq κ] (d : List (κ × α)) (k : κ) : Option α :=
  (d.find? (fun p => p.1 == k)).map (fun p => p.2)

/-- Python dict assignment `d[k] = v`: update an existing key in place,
else append (insertion order preserved). -/
def dinsert {κ α : Type} [BEq κ] (d : List (κ × α)) (k : κ) (v : α) :
    List (κ × α) :=
  if d.any (fun p => p.1 == k) then
    d.map (fun p => if p.1 == k then (k, v) else p)
  else d ++ [(k, v)]

/-- Python dict merge `a |= b`: right operand wins on key collisions. -/
def dmerge {κ α : Type} [BEq κ] (a b : List (κ × α)) : List (κ × α) :=
  b.foldl (fun acc p => dinsert acc p.1 p.2) a

/-- Keys of a dict, in order. -/
def dkeys {κ α : Type} (d : List (κ × α)) : List κ := d.map (fun p => p.1)

/-- Number of records held for a key. -/
def countKey {κ α : Type} [BEq κ] (d : List (κ × α)) (k : κ) : Nat :=
  (d.filter (fun p => p.1 == k)).length

/-- Python `set.add`: no duplicates, insertion order kept. -/
def insertNew (l : List String) (x : String) : List String :=
  if l.contains x then l else l ++ [x]

/-! ### The scan state machine

`Context.run` drives `State.do` until `None`; the per-file states collapse
into two mutually recursive functions over the remaining raw tokens:
`scanTop` is the `GetNextToken` loop outside any function body (with
`FuncStartState` and the commit of `EndFunc` inlined at their transition
points) and `scanFunc` is the `ReadFunc` loop inside a body.  A `[]` token
stream raises `StopIteration`: `GetNextToken.do` catches it (`EndState`),
`ReadFunc.do` does not, so there it escapes to `FileContext.run`, which
prints the error line for the last token read (`self.token`) and
re-raises. -/

/-- The token-consuming states of the machine: `top` is the `GetNextToken`
loop outside any body, `inFunc` the `ReadFunc` loop inside one (carrying
`ctx.token`, `curr_func_name`, `curr_func_ids` and `paren_level`). -/
inductive ScanState where
  | top
  | inFunc (last : Token) (name : String) (ids : List String) (lvl : Int)
deriving DecidableEq, Repr

def scanGo (path : String) (lc : LineCtx) (st : ScanState)
    (funcs : List (String × List String)) (notices : List String) :
    List RawTok → Except String (List (String × List String) × List String)
  | [] =>
    match st with
    | ScanState.top => Except.ok (funcs, notices)
    | ScanState.inFunc last _ _ _ => Except.error (errorLine path last)
  | rt :: rest =>
    let tok := (mkToken lc rt).1
    let lc' := (mkToken lc rt).2
    match st with
    | ScanState.top =>
      if rt.kind = TKind.FUNCSTART then
        match extractName tok.value with
        | none => Except.error (errorLine path tok)
        | some nm =>
          scanGo path lc'
            (ScanState.inFunc tok nm []
              (if tok.value.toList.contains lbrace then 1 else 0)) funcs notices rest
      else scanGo path lc' ScanState.top funcs notices rest
    | ScanState.inFunc _ name ids lvl =>
      match rt.kind with
      | TKind.FUNCSTART =>
        match extractName tok.value with
        | none => Except.error (errorLine path tok)
        | some nnm =>
          scanGo path lc' (ScanState.inFunc tok name ids lvl) funcs
            (notices ++ [nestedNotice nnm path]) rest
      | TKind.IDENTIFIER =>
        scanGo path lc' (ScanState.inFunc tok name (insertNew ids tok.value) lvl)
          funcs notices rest
      | TKind.OPEN_PAREN =>
        scanGo path lc' (ScanState.inFunc tok name ids (lvl + 1)) funcs notices rest
      | TKind.CLOSE_PAREN =>
        if lvl - 1 = 0 then
          scanGo path lc' ScanState.top (dinsert funcs name ids) notices rest
        else
          scanGo path lc' (ScanState.inFunc tok name ids (lvl - 1)) funcs notices rest
      | _ => scanGo path lc' (ScanState.inFunc tok name ids lvl) funcs notices rest

/-- The `GetNextToken` loop at top level. -/
def scanTop (path : String) (lc : LineCtx) (funcs : List (String × List String))
    (notices : List String) (toks : List RawTok) :
    Except String (List (String × List String) × List String) :=
  scanGo path lc ScanState.top funcs notices toks

/-- The `ReadFunc` loop inside a function body. -/
def scanFunc (path : String) (lc : LineCtx) (last : Token)
    (funcs : List (String × List String)) (name : String) (ids : List String)
    (lvl : Int) (notices : List String) (toks : List RawTok) :
    Except String (List (String × List String) × List String) :=
  scanGo path lc (ScanState.inFunc last name ids lvl) funcs notices toks

/-- Run the whole per-file pipeline (`Start → ReadData → …`) on one file's
text: tokenize, then scan from `ScanTopLevel`. -/
def runFile (path : String) (content : String) :
    Except String (List (String × List String) × List String) :=
  scanTop path ⟨1, 0⟩ [] [] (lexAll content.toList)

/-- The module-level aggregation loop: process files in order, merging each
file's `funcs` into the global function table and recording each declared
name's source path; the first failing file aborts the whole run (its
exception propagates uncaught). -/
def processFilesAux (files : List (String × String))
    (funcs : List (String × List String)) (fpaths : List (String × String))
    (notices : List String) :
    Except String
      (List (String × List String) × List (String × String) × List String) :=
  match files with
  | [] => Except.ok (funcs, fpaths, notices)
  | (path, content) :: rest =>
    match runFile path content with
    | Except.error e => Except.error e
    | Except.ok (lfuncs, lnotices) =>
      processFilesAux rest (dmerge funcs lfuncs)
        (dmerge fpaths (lfuncs.map (fun p => (p.1, path))))
        (notices ++ lnotices)

/-- Whole-run aggregation starting from empty global tables. -/
def processFiles (files : List (String × String)) :
    Except String
      (List (String × List String) × List (String × String) × List String) :=
  processFilesAux files [] [] []

/-! ### Dependency filter -/

/-- The module-level dependency-filter loop: every function's identifier
set is replaced by the subset whose members are keys of the global function
table.  (In the source the assignment `funcs[fname] = filtered_deps` sits
inside the inner loop, so it is skipped when `deps` is empty — but then the
old value is already the empty set, so the net effect is this map.  Keys
are never added or removed, so membership tests against `funcs.keys()` are
unaffected by the in-place updates.) -/
def filter_deps (funcs : List (String × List String)) :
    List (String × List String) :=
  funcs.map (fun p => (p.1, p.2.filter (fun d => funcs.any (fun q => q.1 == d))))

/-! ### Level calculator (`memoize_level` / `get_level`) -/

/-- Lexicographic code-point comparison of strings, as Python compares
`str` values when sorting. -/
def charListLe : List Char → List Char → Bool
  | [], _ => true
  | _ :: _, [] => false
  | a :: as, b :: bs => if a = b then charListLe as bs else decide (a < b)

/-- Insertion sort step for `sorted(base_dict.keys())`. -/
def insertSorted (x : String) : List String → List String
  | [] => [x]
  | y :: ys => if charListLe x.toList y.toList then x :: y :: ys else y :: insertSorted x ys

/-- `sorted(...)` over the dict's keys (lexicographic on code points). -/
def sortKeys (l : List String) : List String := l.foldr insertSorted []

/-- State of the `memoize_level` instance: its `cache` dict, keyed by
`(tuple(sorted(base_dict.keys())), key)`, plus an instrumentation counter
of how many times the wrapped function `self.func` has been entered (the
observable that distinguishes a cache hit from a recomputation; it has no
influence on any computed value). -/
structure MemoState where
  cache : List ((List String × String) × Nat)
  calls : Nat
deriving DecidableEq, Repr

/-- The empty cache the decorator starts with. -/
def emptyMemo : MemoState := ⟨[], 0⟩

/-- `max` over a list of naturals (`max` of a nonempty Python sequence). -/
def listMax (l : List Nat) : Nat := l.foldl Nat.max 0

/-- Sequentially compute the levels of all dependencies, threading the
shared cache left to right, as `max(map(lambda k: get_level(...), deps))`
consumes its generator. -/
def foldLevels (fn : MemoState → String → Option (Nat × MemoState))
    (ms : MemoState) : List String → Option (List Nat × MemoState)
  | [] => some ([], ms)
  | d :: ds =>
    match fn ms d with
    | none => none
    | some (v, ms') =>
      match foldLevels fn ms' ds with
      | none => none
      | some (vs, ms'') => some (v :: vs, ms'')

/-- `get_level` as decorated by `memoize_level`.  The cache test is the
walrus `if val := self.cache.get(cache_key):` — a cached value `0` is
falsy, so it falls through to a recomputation.  Recursive calls go through
the wrapper again (the module name `get_level` is bound to the decorator
instance).  `dget? g key = none` models the `KeyError` of `base_dict[key]`
and fuel exhaustion models `RecursionError`. -/
def get_level (g : List (String × List String)) :
    Nat → MemoState → String → Option (Nat × MemoState)
  | 0, _, _ => none
  | fuel + 1, ms, key =>
    let ck : List String × String := (sortKeys (dkeys g), key)
    let body := fun (_ : Unit) =>
      let ms1 : MemoState := ⟨ms.cache, ms.calls + 1⟩
      match dget? g key with
      | none => none
      | some deps =>
        if deps.isEmpty then some (0, ⟨dinsert ms1.cache ck 0, ms1.calls⟩)
        else
          match foldLevels (fun ms' k' => get_level g fuel ms' k') ms1 deps with
          | none => none
          | some (ls, ms2) =>
            some (1 + listMax ls, ⟨dinsert ms2.cache ck (1 + listMax ls), ms2.calls⟩)
    match dget? ms.cache ck with
    | some v => if v = 0 then body () else some (v, ms)
    | none => body ()

/-- Sequence the levels of all dependencies without a cache. -/
def mapLevels (fn : String → Option Nat) : List String → Option (List Nat)
  | [] => some []
  | d :: ds =>
    match fn d with
    | none => none
    | some v =>
      match mapLevels fn ds with
      | none => none
      | some vs => some (v :: vs)

/-- Compute one dependency level per entry, ignoring the cache: the value
semantics of `get_level`'s defining recursion (the cache is pass-through
for values; `get_level_agrees_pure` below proves the correspondence). -/
def get_level_pure (g : List (String × List String)) : Nat → String → Option Nat
  | 0, _ => none
  | fuel + 1, key =>
    match dget? g key with
    | none => none
    | some deps =>
      if deps.isEmpty then some 0
      else
        match mapLevels (fun k => get_level_pure g fuel k) deps with
        | none => none
        | some ls => some (1 + listMax ls)

/-! ### Auxiliary notions used by the statements -/

/-- A dict is well formed when its keys are pairwise distinct (always true
for a Python dict; our `dinsert`/`dmerge` preserve it). -/
def NodupKeys {κ α : Type} (d : List (κ × α)) : Prop := (dkeys d).Nodup

/-- `v` is the level that `get_level`'s recursion assigns to `key` at some
sufficient recursion depth. -/
def TrueLevel (g : List (String × List String)) (key : String) (v : Nat) : Prop :=
  ∃ fuel, get_level_pure g fuel key = some v

/-- Every value cached for the current graph's key tuple is a level the
cache-free recursion also computes. -/
def CacheOK (g : List (String × List String)) (ms : MemoState) : Prop :=
  ∀ k v, dget? ms.cache (sortKeys (dkeys g), k) = some v → TrueLevel g k v

/-- Brace-depth contribution of one raw token inside `ReadFunc`: an open
brace is +1, a close brace is −1, and everything else — including a nested
`FUNCSTART` token, whose consumed `{` is not counted — is 0. -/
def tokDelta (rt : RawTok) : Int :=
  if rt.kind = TKind.OPEN_PAREN then 1
  else if rt.kind = TKind.CLOSE_PAREN then -1 else 0

/-- Brace depth after consuming `toks` from depth `d` inside a body. -/
def depthAfter (d : Int) (toks : List RawTok) : Int :=
  toks.foldl (fun acc rt => acc + tokDelta rt) d

/-- Line tracking (`line_num`/`line_start`) after consuming `toks`. -/
def advanceLine (lc : LineCtx) : List RawTok → LineCtx
  | [] => lc
  | rt :: rest => advanceLine (mkToken lc rt).2 rest

/-- The token held in `ctx.token` after consuming `toks`, starting from a
previously read token `last`. -/
def lastTokOf (lc : LineCtx) (last : Token) : List RawTok → Token
  | [] => last
  | rt :: rest => lastTokOf (mkToken lc rt).2 (mkToken lc rt).1 rest

/-- Identifier values added to `curr_func_ids` while `toks` is consumed
inside a body. -/
def idsAfter (ids : List String) : List RawTok → List String
  | [] => ids
  | rt :: rest =>
    idsAfter (if rt.kind = TKind.IDENTIFIER then insertNew ids rt.value else ids) rest

/-- Nested-declaration notices accumulated while `toks` is consumed inside
a body (a token whose name extraction would fail aborts the scan instead;
the theorems using this assume extraction succeeds). -/
def noticesAfter (path : String) (notices : List String) : List RawTok → List String
  | [] => notices
  | rt :: rest =>
    noticesAfter path
      (if rt.kind = TKind.FUNCSTART then
        match extractName rt.value with
        | some nm => notices ++ [nestedNotice nm path]
        | none => notices
      else notices) rest

/-! ### Auxiliary direct form of the `FUNCSTART` matcher

Python's backtracking exploration of the `FUNCSTART` pattern is equivalent
to a direct three-phase matcher (`funcstartAlt` below): pick the first
qualifier alternative that is followed by a space and an identifier start,
read the greedy identifier, then split off `[^);]*\)[^{;]*{`.
`matchFUNCSTART_eq_alt` proves the equivalence; the direct form makes the
re-match stability of C10 provable by positional reasoning. -/

/-- Deterministic split for the suffix `[^);]*\)([^{;]*{)`: the greedy
star of a class that excludes the following literal admits no backtracking,
so the split point is forced.  Returns the input remaining after `{`. -/
def tailSplit (s : List Char) : Option (List Char) :=
  let a := s.takeWhile notStopTail
  match s.drop a.length with
  | x :: r1 =>
    if x = rparChar then
      let b := r1.takeWhile notBraceTail
      match r1.drop b.length with
      | y :: r2 => if y = lbrace then some r2 else none
      | [] => none
    else none
  | [] => none

/-- Does `p` start with a space followed by an identifier-start character
(the two checks between a qualifier and the funcname)? -/
def spaceIdentB (p : List Char) : Bool :=
  match p with
  | x :: c :: _ => x = spChar && isIdentStart c
  | _ => false

/-- Direct form of the pattern rest after the qualifier: a literal space,
the greedy `funcname` capture, then the tail split.  `L` is the length of
the whole subject (the match object reports consumed length `L - |rr|`). -/
def spaceName (L : Nat) (p : List Char) : Option (Nat × List Char) :=
  match p with
  | x :: s2 =>
    if x = spChar then
      match s2 with
      | c :: rest =>
        if isIdentStart c then
          match tailSplit (rest.drop (rest.takeWhile isIdentChar).length) with
          | some rr => some (L - rr.length, c :: rest.takeWhile isIdentChar)
          | none => none
        else none
      | [] => none
    else none
  | [] => none

/-- The twelve concrete qualifier alternatives of the `FUNCSTART` pattern in
Python's exploration order (greedy optionals first, alternatives left to
right). -/
def qualCands : List (List Char) :=
  ["export async function".toList, "export function".toList,
   "async function".toList, "function".toList,
   "public async static".toList, "public async".toList,
   "public static".toList, "public".toList,
   "private async static".toList, "private async".toList,
   "private static".toList, "private".toList]

/-- A qualifier alternative survives (its branch reaches the tail of the
pattern) iff its literal, the following space, and an identifier-start
character are all present. -/
def qualAccepts (s : List Char) (q : List Char) : Bool :=
  spaceIdentB (s.drop q.length) && q.isPrefixOf s

/-- The qualifier alternative Python's exploration commits to. -/
def chosenQual (s : List Char) : Option (List Char) :=
  qualCands.find? (qualAccepts s)

/-- Direct, backtracking-free equivalent of `matchFUNCSTART`. -/
def funcstartAlt (s : List Char) : Option (Nat × List Char) :=
  match chosenQual s with
  | some Q => spaceName s.length (s.drop Q.length)
  | none => none

/-- The suffix alternatives of the `public`/`private` subtree, in
exploration order. -/
def extCands : List (List Char) :=
  [" async static".toList, " async".toList, " static".toList, []]

/-- Local analogue of `chosenQual` for the `( async)?( static)?` subtree on
the input remaining after `public`/`private`. -/
def extChoose (z : List Char) : Option (List Char) :=
  extCands.find? (fun ext => spaceIdentB (z.drop ext.length) && ext.isPrefixOf z)

end MapTs

namespace MapTs

/-! ## Theorems -/

section DictLemmas

variable {κ α β : Type} [BEq κ] [LawfulBEq κ]

theorem dget?_cons_self {hd : κ × α} {tl : List (κ × α)} {k : κ}
    (h : hd.1 = k) : dget? (hd :: tl) k = some hd.2 := by
  unfold dget?
  rw [List.find?_cons_of_pos _ (by simp [h])]
  rfl

theorem dget?_cons_other {hd : κ × α} {tl : List (κ × α)} {k : κ}
    (h : hd.1 ≠ k) : dget? (hd :: tl) k = dget? tl k := by
  unfold dget?
  rw [List.find?_cons_of_neg _ (by simp [h])]

theorem dget?_map_val (l : List (κ × α)) (F : κ → α → β) (f : κ) :
    dget? (l.map (fun p => (p.1, F p.1 p.2))) f = (dget? l f).map (F f) := by
  induction l with
  | nil => rfl
  | cons hd tl ih =>
    rw [List.map_cons]
    by_cases h : hd.1 = f
    · rw [dget?_cons_self (by simpa using h), dget?_cons_self h]
      subst h
      rfl
    · rw [dget?_cons_other (by simpa using h), dget?_cons_other h, ih]

theorem mem_dkeys_of_dget? {d : List (κ × α)} {k : κ} {v : α}
    (h : dget? d k = some v) : k ∈ dkeys d := by
  induction d with
  | nil => simp [dget?] at h
  | cons hd tl ih =>
    by_cases hk : hd.1 = k
    · simp [dkeys, hk]
    · rw [dget?_cons_other hk] at h
      simp only [dkeys, List.map_cons, List.mem_cons]
      exact Or.inr (ih h)

theorem dget?_replace_hit (d : List (κ × α)) (k : κ) (v : α)
    (h : d.any (fun p => p.1 == k) = true) :
    dget? (d.map (fun p => if p.1 == k then (k, v) else p)) k = some v := by
  induction d with
  | nil => simp at h
  | cons hd tl ih =>
    rw [List.map_cons]
    by_cases hk : hd.1 = k
    · rw [if_pos (by simp [hk])]
      exact dget?_cons_self rfl
    · rw [if_neg (by simp [hk])]
      rw [dget?_cons_other hk]
      simp only [List.any_cons, Bool.or_eq_true] at h
      rcases h with h | h
      · exact absurd (by simpa using h) hk
      · exact ih h

theorem dget?_append_right (d : List (κ × α)) (k : κ) (v : α)
    (h : d.any (fun p => p.1 == k) = false) :
    dget? (d ++ [(k, v)]) k = some v := by
  induction d with
  | nil => exact dget?_cons_self rfl
  | cons hd tl ih =>
    simp only [List.any_cons, Bool.or_eq_false_iff] at h
    rw [List.cons_append, dget?_cons_other (by simpa using h.1)]
    exact ih h.2

theorem dget?_dinsert_self (d : List (κ × α)) (k : κ) (v : α) :
    dget? (dinsert d k v) k = some v := by
  unfold dinsert
  by_cases h : d.any (fun p => p.1 == k)
  · rw [if_pos h]
    exact dget?_replace_hit d k v h
  · rw [if_neg h]
    exact dget?_append_right d k v (Bool.eq_false_iff.mpr h)

theorem dget?_dinsert_other (d : List (κ × α)) (k k' : κ) (v : α)
    (h : k' ≠ k) : dget? (dinsert d k v) k' = dget? d k' := by
  unfold dinsert
  by_cases ha : d.any (fun p => p.1 == k)
  · rw [if_pos ha]
    clear ha
    induction d with
    | nil => rfl
    | cons hd tl ih =>
      rw [List.map_cons]
      by_cases hk : hd.1 = k
      · rw [if_pos (by simp [hk])]
        rw [dget?_cons_other (fun hh => h hh.symm),
          dget?_cons_other (fun hh => h (hk ▸ hh).symm)]
        exact ih
      · rw [if_neg (by simp [hk])]
        by_cases hk' : hd.1 = k'
        · rw [dget?_cons_self hk', dget?_cons_self hk']
        · rw [dget?_cons_other hk', dget?_cons_other hk']
          exact ih
  · rw [if_neg ha]
    rw [Bool.not_eq_true] at ha
    induction d with
    | nil =>
      simp only [List.nil_append]
      rw [dget?_cons_other (fun hh => h hh.symm)]
    | cons hd tl ih =>
      simp only [List.any_cons, Bool.or_eq_false_iff] at ha
      rw [List.cons_append]
      by_cases hk' : hd.1 = k'
      · rw [dget?_cons_self hk', dget?_cons_self hk']
      · rw [dget?_cons_other hk', dget?_cons_other hk']
        exact ih ha.2

theorem countKey_eq_one_of_mem {d : List (κ × α)} {k : κ}
    (hn : NodupKeys d) (hm : k ∈ dkeys d) : countKey d k = 1 := by
  induction d with
  | nil => simp [dkeys] at hm
  | cons hd tl ih =>
    simp only [NodupKeys, dkeys, List.map_cons, List.nodup_cons] at hn
    simp only [dkeys, List.map_cons, List.mem_cons] at hm
    rcases hm with hm | hm
    · have hb : (hd.1 == k) = true := by simp [hm]
      have hz : (tl.filter (fun p => p.1 == k)).length = 0 := by
        rw [List.length_eq_zero, List.filter_eq_nil_iff]
        intro p hp hb2
        have hpk : p.1 = k := by simpa using hb2
        have : p.1 ∈ List.map (fun q => q.1) tl := List.mem_map_of_mem _ hp
        rw [hpk, hm] at this
        exact hn.1 this
      unfold countKey
      rw [List.filter_cons, if_pos hb, List.length_cons, hz]
    · have hb : (hd.1 == k) = false := by
        simp only [beq_eq_false_iff_ne, ne_eq]
        intro hh
        exact hn.1 (hh ▸ hm)
      have := ih hn.2 (by simpa [dkeys] using hm)
      unfold countKey at *
      rw [List.filter_cons, if_neg (by simp [hb]), this]

theorem nodup_dinsert (d : List (κ × α)) (k : κ) (v : α)
    (hn : NodupKeys d) : NodupKeys (dinsert d k v) := by
  unfold dinsert
  by_cases ha : d.any (fun p => p.1 == k)
  · rw [if_pos ha]
    have heq : dkeys (d.map (fun p => if p.1 == k then (k, v) else p)) = dkeys d := by
      unfold dkeys
      rw [List.map_map]
      apply List.map_congr_left
      intro p _
      by_cases hp : p.1 = k
      · simp [hp]
      · simp [hp]
    unfold NodupKeys
    rw [heq]
    exact hn
  · rw [if_neg ha]
    rw [Bool.not_eq_true] at ha
    unfold NodupKeys dkeys at *
    rw [List.map_append]
    simp only [List.map_cons, List.map_nil]
    rw [List.nodup_append]
    refine ⟨hn, List.nodup_singleton _, ?_⟩
    intro x hx
    simp only [List.mem_singleton]
    intro hxk
    subst hxk
    rcases List.mem_map.mp hx with ⟨p, hp, hpk⟩
    rw [List.any_eq_false] at ha
    exact absurd (by simp [hpk]) (ha p hp)

theorem nodup_dmerge (a b : List (κ × α)) (hn : NodupKeys a) :
    NodupKeys (dmerge a b) := by
  induction b generalizing a with
  | nil => exact hn
  | cons hd tl ih => exact ih (dinsert a hd.1 hd.2) (nodup_dinsert a hd.1 hd.2 hn)

theorem dget?_dmerge_of_not_mem (a b : List (κ × α)) (k : κ)
    (h : k ∉ dkeys b) : dget? (dmerge a b) k = dget? a k := by
  induction b generalizing a with
  | nil => rfl
  | cons hd tl ih =>
    simp only [dkeys, List.map_cons, List.mem_cons] at h
    push_neg at h
    have := ih (dinsert a hd.1 hd.2) h.2
    rw [dmerge] at *
    simp only [List.foldl_cons] at *
    rw [this, dget?_dinsert_other a hd.1 k hd.2 h.1]

theorem dget?_dmerge_right (a b : List (κ × α)) (k : κ)
    (hn : NodupKeys b) (hm : k ∈ dkeys b) :
    dget? (dmerge a b) k = dget? b k := by
  induction b generalizing a with
  | nil => simp [dkeys] at hm
  | cons hd tl ih =>
    simp only [NodupKeys, dkeys, List.map_cons, List.nodup_cons] at hn
    simp only [dkeys, List.map_cons, List.mem_cons] at hm
    rw [dmerge]
    simp only [List.foldl_cons]
    rcases hm with hm | hm
    · have hnot : k ∉ dkeys tl := by
        intro hc
        simp only [dkeys] at hc
        rw [hm] at hc
        exact hn.1 hc
      have h1 : dget? (dmerge (dinsert a hd.1 hd.2) tl) k =
          dget? (dinsert a hd.1 hd.2) k := dget?_dmerge_of_not_mem _ tl k hnot
      rw [dmerge] at h1
      rw [h1, hm, dget?_dinsert_self, dget?_cons_self rfl]
    · have h1 := ih (dinsert a hd.1 hd.2) hn.2 (by simpa [dkeys] using hm)
      rw [dmerge] at h1
      rw [h1]
      have hb : hd.1 ≠ k := by
        intro hh
        exact hn.1 (hh ▸ hm)
      rw [dget?_cons_other hb]

omit [BEq κ] [LawfulBEq κ] in
theorem dkeys_map_val (l : List (κ × α)) (F : κ → α → β) :
    dkeys (l.map (fun p => (p.1, F p.1 p.2))) = dkeys l := by
  unfold dkeys
  rw [List.map_map]
  rfl

omit [BEq κ] [LawfulBEq κ] in
theorem dkeys_map_const (l : List (κ × α)) (c : β) :
    dkeys (l.map (fun p => (p.1, c))) = dkeys l := by
  unfold dkeys
  rw [List.map_map]
  rfl

theorem dget?_map_const (l : List (κ × α)) (c : β) (f : κ) :
    dget? (l.map (fun p => (p.1, c))) f = (dget? l f).map (fun _ => c) := by
  induction l with
  | nil => rfl
  | cons hd tl ih =>
    rw [List.map_cons]
    by_cases h : hd.1 = f
    · rw [dget?_cons_self (by simpa using h), dget?_cons_self h]
      rfl
    · rw [dget?_cons_other (by simpa using h), dget?_cons_other h, ih]

end DictLemmas

/-- C2: after the dependency-filter step every function's identifier set is
exactly the subset of its raw identifiers that are keys of the global
function table, hence a subset of the discovered names, and a
self-reference passes the filter whenever the function is itself a key. -/
theorem C2_dependency_filter (funcs : List (String × List String)) (f : String)
    (ds0 : List String) (h : dget? funcs f = some ds0) :
    dget? (filter_deps funcs) f =
      some (ds0.filter (fun d => funcs.any (fun q => q.1 == d))) ∧
    (∀ d ∈ ds0.filter (fun d => funcs.any (fun q => q.1 == d)), d ∈ dkeys funcs) ∧
    (f ∈ dkeys funcs → f ∈ ds0 →
      f ∈ ds0.filter (fun d => funcs.any (fun q => q.1 == d))) := by
  refine ⟨?_, ?_, ?_⟩
  · unfold filter_deps
    rw [dget?_map_val funcs
      (fun _ ds => ds.filter (fun d => funcs.any (fun q => q.1 == d))) f, h]
    rfl
  · intro d hd
    rw [List.mem_filter] at hd
    rcases List.any_eq_true.mp hd.2 with ⟨q, hq, hqd⟩
    have hq1 : q.1 = d := by simpa using hqd
    simp only [dkeys]
    exact hq1 ▸ List.mem_map_of_mem _ hq
  · intro hf hin
    rw [List.mem_filter]
    refine ⟨hin, ?_⟩
    rw [List.any_eq_true]
    simp only [dkeys] at hf
    rcases List.mem_map.mp hf with ⟨q, hq, hq1⟩
    exact ⟨q, hq, by simp [hq1]⟩

/-- Witness for C2 on a concrete table with an unknown identifier and a
self-reference. -/
theorem C2_dependency_filter_witness :
    (dget? [("f", ["g", "zed", "f"]), ("g", [])] "f" = some ["g", "zed", "f"]) ∧
    (dget? (filter_deps [("f", ["g", "zed", "f"]), ("g", [])]) "f" =
      some ((["g", "zed", "f"]).filter
        (fun d => ([("f", ["g", "zed", "f"]), ("g", [])] :
          List (String × List String)).any (fun q => q.1 == d))) ∧
    (∀ d ∈ (["g", "zed", "f"]).filter
        (fun d => ([("f", ["g", "zed", "f"]), ("g", [])] :
          List (String × List String)).any (fun q => q.1 == d)),
      d ∈ dkeys [("f", ["g", "zed", "f"]), ("g", [])]) ∧
    ("f" ∈ dkeys [("f", ["g", "zed", "f"]), ("g", [])] → "f" ∈ ["g", "zed", "f"] →
      "f" ∈ (["g", "zed", "f"]).filter
        (fun d => ([("f", ["g", "zed", "f"]), ("g", [])] :
          List (String × List String)).any (fun q => q.1 == d)))) :=
  ⟨by decide, C2_dependency_filter [("f", ["g", "zed", "f"]), ("g", [])] "f"
    ["g", "zed", "f"] (by decide)⟩

section ScanNodup

/-- The scan only ever extends the per-file function table through
`dinsert`, so its keys stay pairwise distinct. -/
theorem scanGo_nodup (toks : List RawTok) :
    ∀ path lc st funcs notices res nres, NodupKeys funcs →
      scanGo path lc st funcs notices toks = Except.ok (res, nres) →
      NodupKeys res := by
  induction toks with
  | nil =>
    intro path lc st funcs notices res nres hn h
    simp only [scanGo] at h
    cases st with
    | top =>
      injection h with h'
      injection h' with h1 h2
      exact h1 ▸ hn
    | inFunc last name ids lvl => exact absurd h (by simp)
  | cons rt rest ih =>
    intro path lc st funcs notices res nres hn h
    rcases hmk : mkToken lc rt with ⟨tok, lc'⟩
    simp only [scanGo, hmk] at h
    cases st with
    | top =>
      by_cases hk : rt.kind = TKind.FUNCSTART
      · rw [if_pos hk] at h
        cases hex : extractName tok.value with
        | none =>
          rw [hex] at h
          exact absurd h (by simp)
        | some nm =>
          rw [hex] at h
          exact ih path lc' _ funcs notices res nres hn h
      · rw [if_neg hk] at h
        exact ih path lc' _ funcs notices res nres hn h
    | inFunc last name ids lvl =>
      cases hk : rt.kind with
      | FUNCSTART =>
        simp only [hk] at h
        cases hex : extractName tok.value with
        | none =>
          rw [hex] at h
          exact absurd h (by simp)
        | some nnm =>
          rw [hex] at h
          exact ih path lc' _ funcs _ res nres hn h
      | IDENTIFIER =>
        simp only [hk] at h
        exact ih path lc' _ funcs notices res nres hn h
      | OPEN_PAREN =>
        simp only [hk] at h
        exact ih path lc' _ funcs notices res nres hn h
      | CLOSE_PAREN =>
        simp only [hk] at h
        by_cases hz : lvl - 1 = 0
        · rw [if_pos hz] at h
          exact ih path lc' _ (dinsert funcs name ids) notices res nres
            (nodup_dinsert funcs name ids hn) h
        · rw [if_neg hz] at h
          exact ih path lc' _ funcs notices res nres hn h
      | IGNORE =>
        simp only [hk] at h
        exact ih path lc' _ funcs notices res nres hn h
      | NEWLINE =>
        simp only [hk] at h
        exact ih path lc' _ funcs notices res nres hn h

/-- A successfully scanned file yields a function table with distinct
keys. -/
theorem runFile_nodup {path content : String}
    {funcs : List (String × List String)} {notices : List String}
    (h : runFile path content = Except.ok (funcs, notices)) : NodupKeys funcs :=
  scanGo_nodup (lexAll content.toList) path ⟨1, 0⟩ ScanState.top [] [] funcs
    notices (by simp [NodupKeys, dkeys]) h

end ScanNodup

/-- C8: when two files both declare `name`, processing them in order leaves
exactly one record for `name` in the global function table and exactly one
in the global path table, both bound to the later file (last write wins),
and the run succeeds with no validation error. -/
theorem C8_duplicate_names (p1 c1 p2 c2 : String)
    (f1 f2 : List (String × List String)) (n1 n2 : List String)
    (name : String) (ds : List String)
    (h1 : runFile p1 c1 = Except.ok (f1, n1))
    (h2 : runFile p2 c2 = Except.ok (f2, n2))
    (_hm1 : name ∈ dkeys f1) (hm2 : dget? f2 name = some ds) :
    ∃ F P N, processFiles [(p1, c1), (p2, c2)] = Except.ok (F, P, N) ∧
      countKey F name = 1 ∧ dget? F name = some ds ∧
      countKey P name = 1 ∧ dget? P name = some p2 := by
  have hn1 : NodupKeys f1 := runFile_nodup h1
  have hn2 : NodupKeys f2 := runFile_nodup h2
  have hmem2 : name ∈ dkeys f2 := mem_dkeys_of_dget? hm2
  refine ⟨dmerge (dmerge [] f1) f2,
    dmerge (dmerge [] (f1.map (fun p => (p.1, p1)))) (f2.map (fun p => (p.1, p2))),
    n1 ++ n2, ?_, ?_, ?_, ?_, ?_⟩
  · unfold processFiles processFilesAux
    rw [h1]
    unfold processFilesAux
    rw [h2]
    rfl
  · have hnF : NodupKeys (dmerge (dmerge [] f1) f2) :=
      nodup_dmerge _ f2 (nodup_dmerge _ f1 (by simp [NodupKeys, dkeys]))
    have : dget? (dmerge (dmerge [] f1) f2) name = some ds := by
      rw [dget?_dmerge_right _ f2 name hn2 hmem2]
      exact hm2
    exact countKey_eq_one_of_mem hnF (mem_dkeys_of_dget? this)
  · rw [dget?_dmerge_right _ f2 name hn2 hmem2]
    exact hm2
  · have hnP : NodupKeys (dmerge (dmerge [] (f1.map (fun p => (p.1, p1))))
        (f2.map (fun p => (p.1, p2)))) :=
      nodup_dmerge _ _ (nodup_dmerge _ _ (by simp [NodupKeys, dkeys]))
    have hn2' : NodupKeys (f2.map (fun p => (p.1, p2))) := by
      unfold NodupKeys
      rw [dkeys_map_const]
      exact hn2
    have hmem2' : name ∈ dkeys (f2.map (fun p => (p.1, p2))) := by
      rw [dkeys_map_const]
      exact hmem2
    have hv : dget? (f2.map (fun p => (p.1, p2))) name = some p2 := by
      rw [dget?_map_const, hm2]
      rfl
    have : dget? (dmerge (dmerge [] (f1.map (fun p => (p.1, p1))))
        (f2.map (fun p => (p.1, p2)))) name = some p2 := by
      rw [dget?_dmerge_right _ _ name hn2' hmem2']
      exact hv
    exact countKey_eq_one_of_mem hnP (mem_dkeys_of_dget? this)
  · have hn2' : NodupKeys (f2.map (fun p => (p.1, p2))) := by
      unfold NodupKeys
      rw [dkeys_map_const]
      exact hn2
    have hmem2' : name ∈ dkeys (f2.map (fun p => (p.1, p2))) := by
      rw [dkeys_map_const]
      exact hmem2
    rw [dget?_dmerge_right _ _ name hn2' hmem2']
    rw [dget?_map_const, hm2]
    rfl

/-- Witness for C8: scenario D, two files both declaring `dup`. -/
theorem C8_duplicate_names_witness :
    (runFile "a.ts" "function dup()\x7b\x7d" =
      Except.ok ([("dup", [])], [])) ∧
    (runFile "b.ts" "function dup() \x7b x() \x7d" =
      Except.ok ([("dup", ["x"])], [])) ∧
    ("dup" ∈ dkeys [("dup", ([] : List String))]) ∧
    (dget? [("dup", ["x"])] "dup" = some ["x"]) ∧
    (∃ F P N,
      processFiles [("a.ts", "function dup()\x7b\x7d"),
        ("b.ts", "function dup() \x7b x() \x7d")] = Except.ok (F, P, N) ∧
      countKey F "dup" = 1 ∧ dget? F "dup" = some ["x"] ∧
      countKey P "dup" = 1 ∧ dget? P "dup" = some "b.ts") :=
  ⟨by decide, by decide, by decide, by decide,
    C8_duplicate_names "a.ts" "function dup()\x7b\x7d" "b.ts"
      "function dup() \x7b x() \x7d" [("dup", [])] [("dup", ["x"])] [] []
      "dup" ["x"] (by decide) (by decide) (by decide) (by decide)⟩

/-- C6 evaluation: on `base_dict = ("a" ↦ ∅)` the first call computes level
0 and caches it (`calls` goes to 1), but the second call re-enters the
wrapped function (`calls` goes to 2) even though the value 0 is in the
cache, because `if val := self.cache.get(cache_key)` treats a cached `0`
as a miss.  A cached nonzero value, by contrast, is returned untouched. -/
theorem C6_memo_zero_recompute :
    get_level [("a", [])] 10 emptyMemo "a" = some (0, ⟨[((["a"], "a"), 0)], 1⟩) ∧
    get_level [("a", [])] 10 ⟨[((["a"], "a"), 0)], 1⟩ "a" =
      some (0, ⟨[((["a"], "a"), 0)], 2⟩) ∧
    get_level [("a", ["b"]), ("b", [])] 10 ⟨[((["a", "b"], "a"), 1)], 5⟩ "a" =
      some (1, ⟨[((["a", "b"], "a"), 1)], 5⟩) := by
  refine ⟨by decide, by decide, by decide⟩

/-- During the descent into a dependency cycle nothing is ever cached (a
result is stored only after its recursive calls return), so on the mutual
recursion `a → b → a` every recursion budget is exhausted with no level
produced and nothing ever written to the cache on the way down. -/
theorem cycle_no_level (fuel : Nat) :
    ∀ ms : MemoState,
      dget? ms.cache (["a", "b"], "a") = none →
      dget? ms.cache (["a", "b"], "b") = none →
      get_level [("a", ["b"]), ("b", ["a"])] fuel ms "a" = none ∧
      get_level [("a", ["b"]), ("b", ["a"])] fuel ms "b" = none := by
  have hsk : sortKeys (dkeys [("a", ["b"]), ("b", ["a"])]) = ["a", "b"] := by decide
  have hda : dget? [("a", ["b"]), ("b", ["a"])] "a" = some ["b"] := by decide
  have hdb : dget? [("a", ["b"]), ("b", ["a"])] "b" = some ["a"] := by decide
  induction fuel with
  | zero => intro ms _ _; exact ⟨rfl, rfl⟩
  | succ fuel ih =>
    intro ms ha hb
    constructor
    · simp only [get_level, hsk, ha, hda]
      simp only [List.isEmpty, if_false, foldLevels]
      rw [(ih ⟨ms.cache, ms.calls + 1⟩ ha hb).2]
      simp
    · simp only [get_level, hsk, hb, hdb]
      simp only [List.isEmpty, if_false, foldLevels]
      rw [(ih ⟨ms.cache, ms.calls + 1⟩ ha hb).1]
      simp

/-- C3 counterexample: on the mutually recursive input neither a level nor
any cycle-identifying error value is produced even with a recursion budget
of 300 frames; the computation just runs out of stack. -/
theorem C3_cycle_counterexample :
    get_level [("a", ["b"]), ("b", ["a"])] 300 emptyMemo "a" = none ∧
    get_level [("a", ["b"]), ("b", ["a"])] 300 emptyMemo "b" = none := by
  refine ⟨by decide, by decide⟩

/-- C3 (amended): for cyclic input `get_level` exhausts every recursion
budget — the Python original recurses unboundedly until `RecursionError`
aborts the run; no cycle-identifying diagnostic exists in the code and no
(silently wrong) level assignment is ever returned. -/
theorem C3_cycle_unbounded_recursion :
    ∀ fuel : Nat,
      get_level [("a", ["b"]), ("b", ["a"])] fuel emptyMemo "a" = none :=
  fun fuel => (cycle_no_level fuel emptyMemo (by decide) (by decide)).1

section LevelLemmas

variable {κ α : Type} [BEq κ] [LawfulBEq κ]

theorem dget?_mem {d : List (κ × α)} {k : κ} {v : α}
    (h : dget? d k = some v) : (k, v) ∈ d := by
  unfold dget? at h
  cases hf : d.find? (fun p => p.1 == k) with
  | none => rw [hf] at h; exact absurd h (by simp)
  | some p =>
    rw [hf] at h
    have hm := List.mem_of_find?_eq_some hf
    have hp := List.find?_some hf
    injection h with h2
    have hpk : p.1 = k := by simpa using hp
    have : p = (k, v) := by
      cases p
      simp only [Prod.mk.injEq]
      exact ⟨hpk, h2⟩
    exact this ▸ hm

theorem exists_dget?_of_mem_dkeys {d : List (κ × α)} {k : κ}
    (h : k ∈ dkeys d) : ∃ v, dget? d k = some v := by
  induction d with
  | nil => simp [dkeys] at h
  | cons hd tl ih =>
    by_cases hk : hd.1 = k
    · exact ⟨hd.2, dget?_cons_self hk⟩
    · simp only [dkeys, List.map_cons, List.mem_cons] at h
      rcases h with h | h
      · exact absurd h.symm hk
      · obtain ⟨v, hv⟩ := ih (by simpa [dkeys] using h)
        exact ⟨v, by rw [dget?_cons_other hk]; exact hv⟩

theorem init_le_foldl_max : ∀ (l : List Nat) (a : Nat), a ≤ l.foldl Nat.max a := by
  intro l
  induction l with
  | nil => intro a; exact le_rfl
  | cons x xs ih =>
    intro a
    calc a ≤ Nat.max a x := Nat.le_max_left a x
    _ ≤ xs.foldl Nat.max (Nat.max a x) := ih (Nat.max a x)

theorem le_listMax_of_mem {v : Nat} {l : List Nat} (h : v ∈ l) :
    v ≤ listMax l := by
  unfold listMax
  suffices hgen : ∀ a, v ≤ l.foldl Nat.max a from hgen 0
  induction l with
  | nil => simp at h
  | cons x xs ih =>
    intro a
    rcases List.mem_cons.mp h with h | h
    · subst h
      calc v ≤ Nat.max a v := Nat.le_max_right a v
      _ ≤ xs.foldl Nat.max (Nat.max a v) := init_le_foldl_max xs _
    · exact ih h (Nat.max a x)

theorem mapLevels_mono (fn fn' : String → Option Nat)
    (h : ∀ d v, fn d = some v → fn' d = some v) :
    ∀ l ls, mapLevels fn l = some ls → mapLevels fn' l = some ls := by
  intro l
  induction l with
  | nil => intro ls h'; exact h'
  | cons d ds ih =>
    intro ls h'
    rw [mapLevels] at h' ⊢
    cases hf : fn d with
    | none => rw [hf] at h'; exact absurd h' (by simp)
    | some v =>
      rw [hf] at h'
      rw [h d v hf]
      cases hm : mapLevels fn ds with
      | none => rw [hm] at h'; exact absurd h' (by simp)
      | some vs =>
        rw [hm] at h'
        rw [ih vs hm]
        exact h'

theorem mapLevels_total (fn : String → Option Nat) :
    ∀ l, (∀ d ∈ l, ∃ v, fn d = some v) → ∃ ls, mapLevels fn l = some ls := by
  intro l
  induction l with
  | nil => intro _; exact ⟨[], rfl⟩
  | cons d ds ih =>
    intro h
    obtain ⟨v, hv⟩ := h d (List.mem_cons_self d ds)
    obtain ⟨vs, hvs⟩ := ih (fun x hx => h x (List.mem_cons_of_mem d hx))
    refine ⟨v :: vs, ?_⟩
    rw [mapLevels, hv, hvs]

theorem mapLevels_mem (fn : String → Option Nat) :
    ∀ l ls d, mapLevels fn l = some ls → d ∈ l → ∃ v, fn d = some v ∧ v ∈ ls := by
  intro l
  induction l with
  | nil => intro ls d _ hd; simp at hd
  | cons x xs ih =>
    intro ls d h hd
    rw [mapLevels] at h
    cases hf : fn x with
    | none => rw [hf] at h; exact absurd h (by simp)
    | some v =>
      rw [hf] at h
      cases hm : mapLevels fn xs with
      | none => rw [hm] at h; exact absurd h (by simp)
      | some vs =>
        rw [hm] at h
        injection h with h
        subst h
        rcases List.mem_cons.mp hd with hd | hd
        · exact ⟨v, hd ▸ hf, List.mem_cons_self v vs⟩
        · obtain ⟨w, hw, hwm⟩ := ih vs d hm hd
          exact ⟨w, hw, List.mem_cons_of_mem v hwm⟩

theorem get_level_pure_mono (g : List (String × List String)) :
    ∀ fuel k v, get_level_pure g fuel k = some v →
      get_level_pure g (fuel + 1) k = some v := by
  intro fuel
  induction fuel with
  | zero => intro k v h; exact absurd h (by rw [get_level_pure]; simp)
  | succ fuel ih =>
    intro k v h
    rw [get_level_pure] at h ⊢
    cases hdg : dget? g k with
    | none => rw [hdg] at h; exact absurd h (by simp)
    | some deps =>
      simp only [hdg] at h ⊢
      by_cases he : deps.isEmpty
      · rw [if_pos he] at h ⊢
        exact h
      · rw [if_neg he] at h ⊢
        cases hm : mapLevels (fun k => get_level_pure g fuel k) deps with
        | none => rw [hm] at h; exact absurd h (by simp)
        | some ls =>
          rw [hm] at h
          rw [mapLevels_mono _ _ (fun d w hw => ih d w hw) deps ls hm]
          exact h

theorem get_level_pure_mono_le (g : List (String × List String))
    {fuel fuel' : Nat} (hle : fuel ≤ fuel') :
    ∀ k v, get_level_pure g fuel k = some v →
      get_level_pure g fuel' k = some v := by
  induction hle with
  | refl => intro k v h; exact h
  | step _ ih =>
    intro k v h
    exact get_level_pure_mono g _ k v (ih k v h)

/-- Totality of the level recursion on a graph admitting a rank function
(acyclicity) whose dependency sets stay inside the key set. -/
theorem pure_level_total (g : List (String × List String)) (rank : String → Nat)
    (hrank : ∀ p ∈ g, ∀ d ∈ p.2, rank d < rank p.1)
    (hclosed : ∀ p ∈ g, ∀ d ∈ p.2, d ∈ dkeys g) :
    ∀ n f deps fuel, rank f ≤ n → dget? g f = some deps → rank f < fuel →
      ∃ L, get_level_pure g fuel f = some L := by
  intro n
  induction n with
  | zero =>
    intro f deps fuel hle hf hfu
    obtain ⟨fuel', rfl⟩ : ∃ fuel', fuel = fuel' + 1 := ⟨fuel - 1, by omega⟩
    rw [get_level_pure]
    simp only [hf]
    cases hdeps : deps with
    | nil => simp
    | cons d ds =>
      exfalso
      have h2 : rank d < rank f :=
        hrank (f, deps) (dget?_mem hf) d (by rw [hdeps]; exact List.mem_cons_self d ds)
      omega
  | succ n ih =>
    intro f deps fuel hle hf hfu
    obtain ⟨fuel', rfl⟩ : ∃ fuel', fuel = fuel' + 1 := ⟨fuel - 1, by omega⟩
    rw [get_level_pure]
    simp only [hf]
    by_cases he : deps.isEmpty
    · rw [if_pos he]
      exact ⟨0, rfl⟩
    · rw [if_neg he]
      have hml : ∃ ls, mapLevels (fun k => get_level_pure g fuel' k) deps = some ls := by
        apply mapLevels_total
        intro d hd
        have hdk : d ∈ dkeys g := hclosed (f, deps) (dget?_mem hf) d hd
        obtain ⟨dd, hdd⟩ := exists_dget?_of_mem_dkeys hdk
        have hrd : rank d < rank f := hrank (f, deps) (dget?_mem hf) d hd
        exact ih d dd fuel' (by omega) hdd (by omega)
      obtain ⟨ls, hls⟩ := hml
      rw [hls]
      exact ⟨1 + listMax ls, rfl⟩

end LevelLemmas

/-- C1: on an acyclic post-filter graph (witnessed by a rank function
decreasing along dependency edges) whose dependency sets stay inside its
key set, the level recursion terminates for every key at any fuel beyond
the key's rank, yields 0 for functions with no dependencies and
`1 + max` of the dependency levels otherwise, and is strictly greater than
the level of every dependency. -/
theorem C1_level_spec (g : List (String × List String)) (rank : String → Nat)
    (hrank : ∀ p ∈ g, ∀ d ∈ p.2, rank d < rank p.1)
    (hclosed : ∀ p ∈ g, ∀ d ∈ p.2, d ∈ dkeys g)
    (f : String) (deps : List String) (hf : dget? g f = some deps)
    (fuel : Nat) (hfuel : rank f < fuel) :
    ∃ L, get_level_pure g fuel f = some L ∧
      (deps = [] → L = 0) ∧
      (deps ≠ [] → ∃ ls,
        mapLevels (fun d => get_level_pure g fuel d) deps = some ls ∧
        L = 1 + listMax ls) ∧
      (∀ d ∈ deps, ∃ Ld, get_level_pure g fuel d = some Ld ∧ Ld < L) := by
  obtain ⟨fuel', rfl⟩ : ∃ fuel', fuel = fuel' + 1 := ⟨fuel - 1, by omega⟩
  obtain ⟨L, hL⟩ := pure_level_total g rank hrank hclosed (rank f) f deps _
    le_rfl hf hfuel
  refine ⟨L, hL, ?_, ?_, ?_⟩
  · intro hnil
    subst hnil
    rw [get_level_pure] at hL
    simp only [hf] at hL
    simp only [List.isEmpty_nil, if_true] at hL
    injection hL with hL
    exact hL.symm
  · intro hne
    rw [get_level_pure] at hL
    simp only [hf] at hL
    have he : deps.isEmpty = false := by
      cases deps with
      | nil => exact absurd rfl hne
      | cons d ds => rfl
    rw [he] at hL
    simp only [Bool.false_eq_true, if_false] at hL
    cases hm : mapLevels (fun k => get_level_pure g fuel' k) deps with
    | none => rw [hm] at hL; exact absurd hL (by simp)
    | some ls =>
      rw [hm] at hL
      injection hL with hL
      refine ⟨ls, ?_, hL.symm⟩
      exact mapLevels_mono _ _
        (fun d w hw => get_level_pure_mono g fuel' d w hw) deps ls hm
  · intro d hd
    rw [get_level_pure] at hL
    simp only [hf] at hL
    have he : deps.isEmpty = false := by
      cases deps with
      | nil => exact absurd hd (by simp)
      | cons x xs => rfl
    rw [he] at hL
    simp only [Bool.false_eq_true, if_false] at hL
    cases hm : mapLevels (fun k => get_level_pure g fuel' k) deps with
    | none => rw [hm] at hL; exact absurd hL (by simp)
    | some ls =>
      rw [hm] at hL
      injection hL with hL
      obtain ⟨Ld, hLd, hmem⟩ := mapLevels_mem _ deps ls d hm hd
      refine ⟨Ld, get_level_pure_mono g fuel' d Ld hLd, ?_⟩
      rw [← hL]
      have := le_listMax_of_mem hmem
      omega

/-- Witness for C1 on the post-filter graph of scenario A
(`bar` a leaf, `foo` depending on `bar`). -/
theorem C1_level_spec_witness :
    (∀ p ∈ ([("bar", []), ("foo", ["bar"])] : List (String × List String)),
      ∀ d ∈ p.2, (fun s => if s = "foo" then 1 else 0) d <
        (fun s => if s = "foo" then 1 else 0) p.1) ∧
    (∀ p ∈ ([("bar", []), ("foo", ["bar"])] : List (String × List String)),
      ∀ d ∈ p.2, d ∈ dkeys [("bar", []), ("foo", ["bar"])]) ∧
    (dget? [("bar", []), ("foo", ["bar"])] "foo" = some ["bar"]) ∧
    ((fun s => if s = "foo" then 1 else 0) "foo" < 2) ∧
    (∃ L, get_level_pure [("bar", []), ("foo", ["bar"])] 2 "foo" = some L ∧
      ((["bar"] : List String) = [] → L = 0) ∧
      ((["bar"] : List String) ≠ [] → ∃ ls,
        mapLevels (fun d => get_level_pure [("bar", []), ("foo", ["bar"])] 2 d)
          ["bar"] = some ls ∧ L = 1 + listMax ls) ∧
      (∀ d ∈ (["bar"] : List String), ∃ Ld,
        get_level_pure [("bar", []), ("foo", ["bar"])] 2 d = some Ld ∧ Ld < L)) :=
  ⟨by decide, by decide, by decide, by decide,
    C1_level_spec [("bar", []), ("foo", ["bar"])]
      (fun s => if s = "foo" then 1 else 0) (by decide) (by decide)
      "foo" ["bar"] (by decide) 2 (by decide)⟩

section MemoBridge

theorem trueLevel_unique (g : List (String × List String)) {k : String}
    {v v' : Nat} (h1 : TrueLevel g k v) (h2 : TrueLevel g k v') : v = v' := by
  obtain ⟨f1, h1⟩ := h1
  obtain ⟨f2, h2⟩ := h2
  have e1 := get_level_pure_mono_le g (Nat.le_max_left f1 f2) k v h1
  have e2 := get_level_pure_mono_le g (Nat.le_max_right f1 f2) k v' h2
  rw [e1] at e2
  exact Option.some.inj e2

theorem cacheOK_insert (g : List (String × List String)) (ms : MemoState)
    (k : String) (v : Nat) (calls : Nat)
    (hok : CacheOK g ms) (htl : TrueLevel g k v) :
    CacheOK g ⟨dinsert ms.cache (sortKeys (dkeys g), k) v, calls⟩ := by
  intro k' v' h'
  by_cases hk : k' = k
  · subst hk
    rw [show (⟨dinsert ms.cache (sortKeys (dkeys g), k') v, calls⟩ :
      MemoState).cache = dinsert ms.cache (sortKeys (dkeys g), k') v from rfl,
      dget?_dinsert_self] at h'
    injection h' with h'
    exact h' ▸ htl
  · rw [show (⟨dinsert ms.cache (sortKeys (dkeys g), k) v, calls⟩ :
      MemoState).cache = dinsert ms.cache (sortKeys (dkeys g), k) v from rfl,
      dget?_dinsert_other _ _ _ _
        (by intro he; injection he with _ h2; exact hk h2)] at h'
    exact hok k' v' h'

theorem foldLevels_sound (g : List (String × List String))
    (fn : MemoState → String → Option (Nat × MemoState))
    (hfn : ∀ ms k v ms', CacheOK g ms → fn ms k = some (v, ms') →
      TrueLevel g k v ∧ CacheOK g ms') :
    ∀ l ms ls ms', CacheOK g ms → foldLevels fn ms l = some (ls, ms') →
      CacheOK g ms' ∧ ∃ F, mapLevels (fun d => get_level_pure g F d) l = some ls := by
  intro l
  induction l with
  | nil =>
    intro ms ls ms' hok h
    rw [foldLevels] at h
    injection h with h
    injection h with h1 h2
    subst h1
    subst h2
    exact ⟨hok, 0, rfl⟩
  | cons d ds ih =>
    intro ms ls ms' hok h
    rw [foldLevels] at h
    cases hfd : fn ms d with
    | none => rw [hfd] at h; exact absurd h (by simp)
    | some p =>
      obtain ⟨v, ms1⟩ := p
      rw [hfd] at h
      cases hfl : foldLevels fn ms1 ds with
      | none =>
        simp only [hfl] at h
        exact absurd h (by simp)
      | some q =>
        obtain ⟨vs, ms2⟩ := q
        simp only [hfl] at h
        injection h with h
        injection h with h1 h2
        subst h1
        subst h2
        obtain ⟨htv, hok1⟩ := hfn ms d v ms1 hok hfd
        obtain ⟨hok2, F2, hm2⟩ := ih ms1 vs ms2 hok1 hfl
        obtain ⟨F1, hm1⟩ := htv
        refine ⟨hok2, Nat.max F1 F2, ?_⟩
        rw [mapLevels]
        rw [get_level_pure_mono_le g (Nat.le_max_left F1 F2) d v hm1]
        rw [mapLevels_mono _ _
          (fun x w hw => get_level_pure_mono_le g (Nat.le_max_right F1 F2) x w hw)
          ds vs hm2]

/-- The memoized `get_level` computes exactly the values of its cache-free
recursion: starting from a sound cache, every produced value is a
`get_level_pure` value and the cache stays sound.  (The cache is therefore
pass-through for values, which justifies stating value properties on
`get_level_pure`.) -/
theorem get_level_agrees_pure (g : List (String × List String)) :
    ∀ fuel ms key v ms', CacheOK g ms →
      get_level g fuel ms key = some (v, ms') →
      TrueLevel g key v ∧ CacheOK g ms' := by
  intro fuel
  induction fuel with
  | zero =>
    intro ms key v ms' _ h
    rw [get_level] at h
    exact absurd h (by simp)
  | succ fuel ih =>
    intro ms key v ms' hok h
    rw [get_level] at h
    cases hc : dget? ms.cache (sortKeys (dkeys g), key) with
    | some c =>
      simp only [hc] at h
      by_cases hz : c = 0
      · rw [if_pos hz] at h
        cases hdg : dget? g key with
        | none =>
          simp only [hdg] at h
          exact absurd h (by simp)
        | some deps =>
          simp only [hdg] at h
          by_cases he : deps.isEmpty
          · rw [if_pos he] at h
            injection h with h
            injection h with h1 h2
            subst h1
            subst h2
            have htl : TrueLevel g key 0 := by
              refine ⟨1, ?_⟩
              rw [get_level_pure]
              simp only [hdg]
              rw [if_pos he]
            exact ⟨htl, cacheOK_insert g ms key 0 _ hok htl⟩
          · rw [if_neg he] at h
            cases hfl : foldLevels (fun ms' k' => get_level g fuel ms' k')
                ⟨ms.cache, ms.calls + 1⟩ deps with
            | none =>
              simp only [hfl] at h
              exact absurd h (by simp)
            | some q =>
              obtain ⟨ls, ms2⟩ := q
              simp only [hfl] at h
              injection h with h
              injection h with h1 h2
              subst h1
              subst h2
              obtain ⟨hok2, F, hmF⟩ := foldLevels_sound g _
                (fun ms k v ms' a b => ih ms k v ms' a b) deps
                ⟨ms.cache, ms.calls + 1⟩ ls ms2 hok hfl
              have htl : TrueLevel g key (1 + listMax ls) := by
                refine ⟨F + 1, ?_⟩
                rw [get_level_pure]
                simp only [hdg]
                rw [if_neg he, hmF]
              exact ⟨htl, cacheOK_insert g ms2 key (1 + listMax ls) _ hok2 htl⟩
      · rw [if_neg hz] at h
        injection h with h
        injection h with h1 h2
        subst h1
        subst h2
        exact ⟨hok _ _ hc, hok⟩
    | none =>
      simp only [hc] at h
      cases hdg : dget? g key with
      | none =>
        simp only [hdg] at h
        exact absurd h (by simp)
      | some deps =>
        simp only [hdg] at h
        by_cases he : deps.isEmpty
        · rw [if_pos he] at h
          injection h with h
          injection h with h1 h2
          subst h1
          subst h2
          have htl : TrueLevel g key 0 := by
            refine ⟨1, ?_⟩
            rw [get_level_pure]
            simp only [hdg]
            rw [if_pos he]
          exact ⟨htl, cacheOK_insert g ms key 0 _ hok htl⟩
        · rw [if_neg he] at h
          cases hfl : foldLevels (fun ms' k' => get_level g fuel ms' k')
              ⟨ms.cache, ms.calls + 1⟩ deps with
          | none =>
            simp only [hfl] at h
            exact absurd h (by simp)
          | some q =>
            obtain ⟨ls, ms2⟩ := q
            simp only [hfl] at h
            injection h with h
            injection h with h1 h2
            subst h1
            subst h2
            obtain ⟨hok2, F, hmF⟩ := foldLevels_sound g _
              (fun ms k v ms' a b => ih ms k v ms' a b) deps
              ⟨ms.cache, ms.calls + 1⟩ ls ms2 hok hfl
            have htl : TrueLevel g key (1 + listMax ls) := by
              refine ⟨F + 1, ?_⟩
              rw [get_level_pure]
              simp only [hdg]
              rw [if_neg he, hmF]
            exact ⟨htl, cacheOK_insert g ms2 key (1 + listMax ls) _ hok2 htl⟩

end MemoBridge

/-- C7 evaluation: in `function f() { // helper\n}` the comment `// helper`
is not matched by the `IGNORE` alternative (its pattern is `//[^\n]r`, not
`//[^\n]*`): the lexer emits `helper` as an `IDENTIFIER` token, and the
scan records it in `f`'s identifier set even though it occurs only inside
the comment. -/
theorem C7_comment_identifier_collected :
    runFile "d.ts" "function f() \x7b // helper\n\x7d" =
      Except.ok ([("f", ["helper"])], []) ∧
    lexAll "// helper\n".toList =
      [⟨TKind.IDENTIFIER, "helper", 3⟩, ⟨TKind.NEWLINE, "\n", 9⟩] := by
  refine ⟨by decide, by decide⟩


section ScanStructure

theorem depthAfter_nil (d : Int) : depthAfter d [] = d := rfl

theorem depthAfter_cons (d : Int) (rt : RawTok) (l : List RawTok) :
    depthAfter d (rt :: l) = depthAfter (d + tokDelta rt) l := rfl

theorem mkToken_fst (lc : LineCtx) (rt : RawTok) :
    (mkToken lc rt).1 =
      ⟨rt.kind, rt.value, lc.line_num, (rt.start : Int) - (lc.line_start : Int)⟩ := by
  unfold mkToken
  by_cases h : rt.kind = TKind.NEWLINE
  · rw [if_pos h]
  · rw [if_neg h]

theorem advanceLine_cons (lc : LineCtx) (rt : RawTok) (l : List RawTok) :
    advanceLine lc (rt :: l) = advanceLine (mkToken lc rt).2 l := rfl

theorem idsAfter_cons (ids : List String) (rt : RawTok) (l : List RawTok) :
    idsAfter ids (rt :: l) =
      idsAfter (if rt.kind = TKind.IDENTIFIER then insertNew ids rt.value else ids) l := rfl

theorem noticesAfter_cons (path : String) (notices : List String) (rt : RawTok)
    (l : List RawTok) :
    noticesAfter path notices (rt :: l) =
      noticesAfter path
        (if rt.kind = TKind.FUNCSTART then
          match extractName rt.value with
          | some nm => notices ++ [nestedNotice nm path]
          | none => notices
        else notices) l := rfl

end ScanStructure

/-- C9: inside a body at depth `lvl > 0`, the enclosing function's record
is committed at the first index `k` where the running brace count reaches
0, where the count treats a nested `FunctionHead` token as 0 even though
its text consumed a `{`; the committed record holds exactly the
identifiers of the first `k + 1` tokens, and scanning resumes at top
level on the remaining tokens — a state in which non-head tokens (such as
identifiers occurring after the nested body but before the enclosing
function's real closing brace) are consumed without touching any table. -/
theorem C9_nested_head_depth_and_commit (path : String) (k : Nat) :
    (∀ (toks : List RawTok) (lc : LineCtx) (last : Token)
      (funcs : List (String × List String)) (name : String) (ids : List String)
      (lvl : Int) (notices : List String),
      k < toks.length → 0 < lvl →
      (∀ j, j < k → 0 < depthAfter lvl (toks.take (j + 1))) →
      depthAfter lvl (toks.take (k + 1)) = 0 →
      (∀ rt ∈ toks.take k, rt.kind = TKind.FUNCSTART →
        (extractName rt.value).isSome) →
      scanFunc path lc last funcs name ids lvl notices toks =
        scanTop path (advanceLine lc (toks.take (k + 1)))
          (dinsert funcs name (idsAfter ids (toks.take (k + 1))))
          (noticesAfter path notices (toks.take (k + 1))) (toks.drop (k + 1))) ∧
    (∀ (lc : LineCtx) (funcs : List (String × List String)) (notices : List String)
      (rt : RawTok) (rest : List RawTok), rt.kind ≠ TKind.FUNCSTART →
      scanTop path lc funcs notices (rt :: rest) =
        scanTop path (mkToken lc rt).2 funcs notices rest) := by
  constructor
  · induction k with
    | zero =>
      intro toks lc last funcs name ids lvl notices hk hlvl _ hzero hext
      cases toks with
      | nil => simp at hk
      | cons rt rest =>
        rw [List.take_succ_cons, List.take_zero, depthAfter_cons, depthAfter_nil]
          at hzero
        cases hkind : rt.kind with
        | OPEN_PAREN =>
          exfalso
          simp [tokDelta, hkind] at hzero
          omega
        | CLOSE_PAREN =>
          have hlvl1 : lvl = 1 := by
            simp [tokDelta, hkind] at hzero
            omega
          unfold scanFunc scanTop
          simp only [scanGo, hkind]
          rw [if_pos (by rw [hlvl1]; norm_num)]
          rw [List.take_succ_cons, List.take_zero, List.drop_succ_cons,
            List.drop_zero, advanceLine_cons, idsAfter_cons, noticesAfter_cons]
          simp only [hkind]
          rfl
        | FUNCSTART =>
          exfalso
          simp [tokDelta, hkind] at hzero
          omega
        | IDENTIFIER =>
          exfalso
          simp [tokDelta, hkind] at hzero
          omega
        | IGNORE =>
          exfalso
          simp [tokDelta, hkind] at hzero
          omega
        | NEWLINE =>
          exfalso
          simp [tokDelta, hkind] at hzero
          omega
    | succ k ih =>
      intro toks lc last funcs name ids lvl notices hk hlvl hpos hzero hext
      cases toks with
      | nil => simp at hk
      | cons rt rest =>
        have hk' : k < rest.length := by
          simp only [List.length_cons] at hk
          omega
        have h0 : 0 < lvl + tokDelta rt := by
          have := hpos 0 (Nat.succ_pos k)
          rwa [List.take_succ_cons, List.take_zero, depthAfter_cons,
            depthAfter_nil] at this
        have hpos' : ∀ j, j < k → 0 < depthAfter (lvl + tokDelta rt) (rest.take (j + 1)) := by
          intro j hj
          have := hpos (j + 1) (by omega)
          rwa [List.take_succ_cons, depthAfter_cons] at this
        have hzero' : depthAfter (lvl + tokDelta rt) (rest.take (k + 1)) = 0 := by
          rw [List.take_succ_cons, depthAfter_cons] at hzero
          exact hzero
        have hext' : ∀ rt' ∈ rest.take k, rt'.kind = TKind.FUNCSTART →
            (extractName rt'.value).isSome := by
          intro rt' h' hkd
          refine hext rt' ?_ hkd
          rw [List.take_succ_cons]
          exact List.mem_cons_of_mem rt h'
        rw [List.take_succ_cons, List.drop_succ_cons, advanceLine_cons,
          idsAfter_cons, noticesAfter_cons]
        cases hkind : rt.kind with
        | FUNCSTART =>
          have heq : lvl + tokDelta rt = lvl := by simp [tokDelta, hkind]
          rw [heq] at h0 hpos' hzero'
          obtain ⟨nm, hnm⟩ := Option.isSome_iff_exists.mp
            (hext rt (by rw [List.take_succ_cons]; exact List.mem_cons_self rt _) hkind)
          unfold scanFunc scanTop at *
          simp only [scanGo, hkind, mkToken_fst, hnm]
          have hres := ih rest (mkToken lc rt).2 ⟨TKind.FUNCSTART, rt.value,
            lc.line_num, (rt.start : Int) - (lc.line_start : Int)⟩ funcs name ids
            lvl (notices ++ [nestedNotice nm path]) hk' h0 hpos' hzero' hext'
          simpa using hres
        | IDENTIFIER =>
          have heq : lvl + tokDelta rt = lvl := by simp [tokDelta, hkind]
          rw [heq] at h0 hpos' hzero'
          unfold scanFunc scanTop at *
          simp only [scanGo, hkind, mkToken_fst]
          have hres := ih rest (mkToken lc rt).2 ⟨TKind.IDENTIFIER, rt.value,
            lc.line_num, (rt.start : Int) - (lc.line_start : Int)⟩ funcs name
            (insertNew ids rt.value) lvl notices hk' h0 hpos' hzero' hext'
          simpa using hres
        | OPEN_PAREN =>
          have heq : lvl + tokDelta rt = lvl + 1 := by simp [tokDelta, hkind]
          rw [heq] at h0 hpos' hzero'
          unfold scanFunc scanTop at *
          simp only [scanGo, hkind, mkToken_fst]
          have hres := ih rest (mkToken lc rt).2 ⟨TKind.OPEN_PAREN, rt.value,
            lc.line_num, (rt.start : Int) - (lc.line_start : Int)⟩ funcs name ids
            (lvl + 1) notices hk' h0 hpos' hzero' hext'
          simpa using hres
        | CLOSE_PAREN =>
          have heq : lvl + tokDelta rt = lvl - 1 := by
            simp [tokDelta, hkind]
            ring
          rw [heq] at h0 hpos' hzero'
          have hne : ¬(lvl - 1 = 0) := by omega
          unfold scanFunc scanTop at *
          simp only [scanGo, hkind, mkToken_fst]
          rw [if_neg hne]
          have hres := ih rest (mkToken lc rt).2 ⟨TKind.CLOSE_PAREN, rt.value,
            lc.line_num, (rt.start : Int) - (lc.line_start : Int)⟩ funcs name ids
            (lvl - 1) notices hk' h0 hpos' hzero' hext'
          simpa using hres
        | IGNORE =>
          have heq : lvl + tokDelta rt = lvl := by simp [tokDelta, hkind]
          rw [heq] at h0 hpos' hzero'
          unfold scanFunc scanTop at *
          simp only [scanGo, hkind, mkToken_fst]
          have hres := ih rest (mkToken lc rt).2 ⟨TKind.IGNORE, rt.value,
            lc.line_num, (rt.start : Int) - (lc.line_start : Int)⟩ funcs name ids
            lvl notices hk' h0 hpos' hzero' hext'
          simpa using hres
        | NEWLINE =>
          have heq : lvl + tokDelta rt = lvl := by simp [tokDelta, hkind]
          rw [heq] at h0 hpos' hzero'
          unfold scanFunc scanTop at *
          simp only [scanGo, hkind, mkToken_fst]
          have hres := ih rest (mkToken lc rt).2 ⟨TKind.NEWLINE, rt.value,
            lc.line_num, (rt.start : Int) - (lc.line_start : Int)⟩ funcs name ids
            lvl notices hk' h0 hpos' hzero' hext'
          simpa using hres
  · intro lc funcs notices rt rest hne
    unfold scanTop
    simp only [scanGo]
    rw [if_neg hne]


theorem lastTokOf_cons (lc : LineCtx) (last : Token) (rt : RawTok)
    (l : List RawTok) :
    lastTokOf lc last (rt :: l) = lastTokOf (mkToken lc rt).2 (mkToken lc rt).1 l := rfl

/-- C5: when the token stream of a file ends while a function body is still
open (the running brace depth never returns to 0 in the remaining tokens),
the scan fails with exactly one error line annotating the token last read
(`Error found after <path>:<line>:<column>: '<token text>'`); the failure
carries no function table, so the partially read function is never
committed, and the module-level loop aborts on it, processing none of the
remaining files. -/
theorem C5_unbalanced_aborts (path : String) :
    (∀ (toks : List RawTok) (lc : LineCtx) (last : Token)
      (funcs : List (String × List String)) (name : String) (ids : List String)
      (lvl : Int) (notices : List String),
      (∀ j, j < toks.length → depthAfter lvl (toks.take (j + 1)) ≠ 0) →
      (∀ rt ∈ toks, rt.kind = TKind.FUNCSTART → (extractName rt.value).isSome) →
      scanFunc path lc last funcs name ids lvl notices toks =
        Except.error (errorLine path (lastTokOf lc last toks))) ∧
    (∀ (files : List (String × String)) (funcs0 : List (String × List String))
      (fpaths0 : List (String × String)) (notices0 : List String) (c e : String),
      runFile path c = Except.error e →
      processFilesAux ((path, c) :: files) funcs0 fpaths0 notices0 =
        Except.error e) := by
  constructor
  · intro toks
    induction toks with
    | nil =>
      intro lc last funcs name ids lvl notices _ _
      rfl
    | cons rt rest ih =>
      intro lc last funcs name ids lvl notices hnz hext
      have hnz' : ∀ j, j < rest.length →
          depthAfter (lvl + tokDelta rt) (rest.take (j + 1)) ≠ 0 := by
        intro j hj
        have := hnz (j + 1) (by simp only [List.length_cons]; omega)
        rwa [List.take_succ_cons, depthAfter_cons] at this
      have hext' : ∀ rt' ∈ rest, rt'.kind = TKind.FUNCSTART →
          (extractName rt'.value).isSome :=
        fun rt' h' => hext rt' (List.mem_cons_of_mem rt h')
      rw [lastTokOf_cons]
      cases hkind : rt.kind with
      | FUNCSTART =>
        have heq : lvl + tokDelta rt = lvl := by simp [tokDelta, hkind]
        rw [heq] at hnz'
        obtain ⟨nm, hnm⟩ := Option.isSome_iff_exists.mp
          (hext rt (List.mem_cons_self rt rest) hkind)
        unfold scanFunc at *
        simp only [scanGo, hkind, mkToken_fst, hnm]
        have hres := ih (mkToken lc rt).2 ⟨TKind.FUNCSTART, rt.value, lc.line_num,
          (rt.start : Int) - (lc.line_start : Int)⟩ funcs name ids lvl
          (notices ++ [nestedNotice nm path]) hnz' hext'
        simpa [mkToken_fst, hkind] using hres
      | IDENTIFIER =>
        have heq : lvl + tokDelta rt = lvl := by simp [tokDelta, hkind]
        rw [heq] at hnz'
        unfold scanFunc at *
        simp only [scanGo, hkind, mkToken_fst]
        have hres := ih (mkToken lc rt).2 ⟨TKind.IDENTIFIER, rt.value, lc.line_num,
          (rt.start : Int) - (lc.line_start : Int)⟩ funcs name
          (insertNew ids rt.value) lvl notices hnz' hext'
        simpa [mkToken_fst, hkind] using hres
      | OPEN_PAREN =>
        have heq : lvl + tokDelta rt = lvl + 1 := by simp [tokDelta, hkind]
        rw [heq] at hnz'
        unfold scanFunc at *
        simp only [scanGo, hkind, mkToken_fst]
        have hres := ih (mkToken lc rt).2 ⟨TKind.OPEN_PAREN, rt.value, lc.line_num,
          (rt.start : Int) - (lc.line_start : Int)⟩ funcs name ids (lvl + 1)
          notices hnz' hext'
        simpa [mkToken_fst, hkind] using hres
      | CLOSE_PAREN =>
        have heq : lvl + tokDelta rt = lvl - 1 := by
          simp [tokDelta, hkind]
          ring
        rw [heq] at hnz'
        have hne : ¬(lvl - 1 = 0) := by
          have := hnz 0 (by simp)
          rw [List.take_succ_cons, List.take_zero, depthAfter_cons,
            depthAfter_nil, heq] at this
          exact this
        unfold scanFunc at *
        simp only [scanGo, hkind, mkToken_fst]
        rw [if_neg hne]
        have hres := ih (mkToken lc rt).2 ⟨TKind.CLOSE_PAREN, rt.value, lc.line_num,
          (rt.start : Int) - (lc.line_start : Int)⟩ funcs name ids (lvl - 1)
          notices hnz' hext'
        simpa [mkToken_fst, hkind] using hres
      | IGNORE =>
        have heq : lvl + tokDelta rt = lvl := by simp [tokDelta, hkind]
        rw [heq] at hnz'
        unfold scanFunc at *
        simp only [scanGo, hkind, mkToken_fst]
        have hres := ih (mkToken lc rt).2 ⟨TKind.IGNORE, rt.value, lc.line_num,
          (rt.start : Int) - (lc.line_start : Int)⟩ funcs name ids lvl
          notices hnz' hext'
        simpa [mkToken_fst, hkind] using hres
      | NEWLINE =>
        have heq : lvl + tokDelta rt = lvl := by simp [tokDelta, hkind]
        rw [heq] at hnz'
        unfold scanFunc at *
        simp only [scanGo, hkind, mkToken_fst]
        have hres := ih (mkToken lc rt).2 ⟨TKind.NEWLINE, rt.value, lc.line_num,
          (rt.start : Int) - (lc.line_start : Int)⟩ funcs name ids lvl
          notices hnz' hext'
        simpa [mkToken_fst, hkind] using hres
  · intro files funcs0 fpaths0 notices0 c e h
    unfold processFilesAux
    rw [h]

/-- Witness for C5 on `function f() { bar(`: the stream ends inside `f`'s
body right after the identifier `bar`, the error line annotates `bar`, and
a following file is never scanned. -/
theorem C5_unbalanced_aborts_witness :
    (∀ j, j < ([⟨TKind.IDENTIFIER, "bar", 15⟩] : List RawTok).length →
      depthAfter 1 (([⟨TKind.IDENTIFIER, "bar", 15⟩] : List RawTok).take (j + 1)) ≠ 0) ∧
    (∀ rt ∈ ([⟨TKind.IDENTIFIER, "bar", 15⟩] : List RawTok),
      rt.kind = TKind.FUNCSTART → (extractName rt.value).isSome) ∧
    (scanFunc "f.ts" ⟨1, 0⟩ ⟨TKind.FUNCSTART, "function f() \x7b", 1, 0⟩ [] "f" []
      1 [] [⟨TKind.IDENTIFIER, "bar", 15⟩] =
      Except.error (errorLine "f.ts"
        (lastTokOf ⟨1, 0⟩ ⟨TKind.FUNCSTART, "function f() \x7b", 1, 0⟩
          [⟨TKind.IDENTIFIER, "bar", 15⟩]))) ∧
    (runFile "f.ts" "function f() \x7b bar(" =
      Except.error "Error found after f.ts:1:15: 'bar'") ∧
    (processFilesAux [("f.ts", "function f() \x7b bar("),
        ("g.ts", "function g()\x7b\x7d")] [] [] [] =
      Except.error "Error found after f.ts:1:15: 'bar'") :=
  ⟨by decide, by decide,
    (C5_unbalanced_aborts "f.ts").1 [⟨TKind.IDENTIFIER, "bar", 15⟩] ⟨1, 0⟩
      ⟨TKind.FUNCSTART, "function f() \x7b", 1, 0⟩ [] "f" [] 1 []
      (by decide) (by decide),
    by decide,
    (C5_unbalanced_aborts "f.ts").2 [("g.ts", "function g()\x7b\x7d")] [] [] []
      "function f() \x7b bar(" "Error found after f.ts:1:15: 'bar'" (by decide)⟩

/-- C4: a `FunctionHead` token met inside a body emits exactly the
nested-declaration notice and changes nothing else — the scan stays inside
the same enclosing function with the same table, identifier set and brace
depth, so no entry is created for the nested name; every identifier token
read while inside the body joins the enclosing function's identifier set;
and on scenario C the whole run yields a notice for `inner`, `outer`
depending on `helper`, and no record for `inner`. -/
theorem C4_nested_declaration (path : String) :
    (∀ (lc : LineCtx) (last : Token) (funcs : List (String × List String))
      (name : String) (ids : List String) (lvl : Int) (notices : List String)
      (rt : RawTok) (rest : List RawTok) (nm : String),
      rt.kind = TKind.FUNCSTART → extractName rt.value = some nm →
      scanFunc path lc last funcs name ids lvl notices (rt :: rest) =
        scanFunc path (mkToken lc rt).2 (mkToken lc rt).1 funcs name ids lvl
          (notices ++ [nestedNotice nm path]) rest) ∧
    (∀ (lc : LineCtx) (last : Token) (funcs : List (String × List String))
      (name : String) (ids : List String) (lvl : Int) (notices : List String)
      (rt' : RawTok) (rest' : List RawTok),
      rt'.kind = TKind.IDENTIFIER →
      scanFunc path lc last funcs name ids lvl notices (rt' :: rest') =
        scanFunc path (mkToken lc rt').2 (mkToken lc rt').1 funcs name
          (insertNew ids rt'.value) lvl notices rest') ∧
    (runFile "c.ts"
      "function outer()\x7b function inner()\x7b helper(); \x7d \x7d function helper()\x7b\x7d" =
      Except.ok ([("outer", ["helper"]), ("helper", [])],
        [nestedNotice "inner" "c.ts"])) := by
  refine ⟨?_, ?_, by decide⟩
  · intro lc last funcs name ids lvl notices rt rest nm hk hex
    unfold scanFunc
    simp only [scanGo, mkToken_fst, hk, hex]
  · intro lc last funcs name ids lvl notices rt' rest' hk
    unfold scanFunc
    simp only [scanGo, mkToken_fst, hk]

/-- Witness for C4 at the nested head of scenario C and one identifier
token inside the nested body. -/
theorem C4_nested_declaration_witness :
    ((⟨TKind.FUNCSTART, "function inner()\x7b", 18⟩ : RawTok).kind =
      TKind.FUNCSTART) ∧
    (extractName "function inner()\x7b" = some "inner") ∧
    (scanFunc "c4.ts" ⟨1, 0⟩ ⟨TKind.FUNCSTART, "function outer()\x7b", 1, 0⟩ []
      "outer" [] 1 [] [⟨TKind.FUNCSTART, "function inner()\x7b", 18⟩] =
      scanFunc "c4.ts" (mkToken ⟨1, 0⟩ ⟨TKind.FUNCSTART, "function inner()\x7b", 18⟩).2
        (mkToken ⟨1, 0⟩ ⟨TKind.FUNCSTART, "function inner()\x7b", 18⟩).1 []
        "outer" [] 1 ([] ++ [nestedNotice "inner" "c4.ts"]) []) ∧
    ((⟨TKind.IDENTIFIER, "helper", 36⟩ : RawTok).kind = TKind.IDENTIFIER) ∧
    (scanFunc "c4.ts" ⟨1, 0⟩ ⟨TKind.FUNCSTART, "function outer()\x7b", 1, 0⟩ []
      "outer" [] 1 [] [⟨TKind.IDENTIFIER, "helper", 36⟩] =
      scanFunc "c4.ts" (mkToken ⟨1, 0⟩ ⟨TKind.IDENTIFIER, "helper", 36⟩).2
        (mkToken ⟨1, 0⟩ ⟨TKind.IDENTIFIER, "helper", 36⟩).1 []
        "outer" (insertNew [] "helper") 1 [] []) :=
  ⟨by decide, by decide,
    (C4_nested_declaration "c4.ts").1 ⟨1, 0⟩
      ⟨TKind.FUNCSTART, "function outer()\x7b", 1, 0⟩ [] "outer" [] 1 []
      ⟨TKind.FUNCSTART, "function inner()\x7b", 18⟩ [] "inner"
      (by decide) (by decide),
    by decide,
    (C4_nested_declaration "c4.ts").2.1 ⟨1, 0⟩
      ⟨TKind.FUNCSTART, "function outer()\x7b", 1, 0⟩ [] "outer" [] 1 []
      ⟨TKind.IDENTIFIER, "helper", 36⟩ [] (by decide)⟩

/-- Witness for C9 on the body tokens of
`function outer(){ function inner(){ helper(); } trailing(); }`: the first
index at which the running count reaches 0 is the nested function's own
closing brace (index 2), so `outer` is committed there with only `helper`
in its set, and `trailing` is consumed afterwards at top level. -/
theorem C9_nested_head_depth_and_commit_witness :
    (2 < ([⟨TKind.FUNCSTART, "function inner()\x7b", 18⟩,
      ⟨TKind.IDENTIFIER, "helper", 36⟩, ⟨TKind.CLOSE_PAREN, "\x7d", 46⟩,
      ⟨TKind.IDENTIFIER, "trailing", 48⟩, ⟨TKind.CLOSE_PAREN, "\x7d", 60⟩] :
      List RawTok).length) ∧
    (0 < (1 : Int)) ∧
    (∀ j, j < 2 → 0 < depthAfter 1
      (([⟨TKind.FUNCSTART, "function inner()\x7b", 18⟩,
        ⟨TKind.IDENTIFIER, "helper", 36⟩, ⟨TKind.CLOSE_PAREN, "\x7d", 46⟩,
        ⟨TKind.IDENTIFIER, "trailing", 48⟩, ⟨TKind.CLOSE_PAREN, "\x7d", 60⟩] :
        List RawTok).take (j + 1))) ∧
    (depthAfter 1 (([⟨TKind.FUNCSTART, "function inner()\x7b", 18⟩,
      ⟨TKind.IDENTIFIER, "helper", 36⟩, ⟨TKind.CLOSE_PAREN, "\x7d", 46⟩,
      ⟨TKind.IDENTIFIER, "trailing", 48⟩, ⟨TKind.CLOSE_PAREN, "\x7d", 60⟩] :
      List RawTok).take 3) = 0) ∧
    (∀ rt ∈ ([⟨TKind.FUNCSTART, "function inner()\x7b", 18⟩,
      ⟨TKind.IDENTIFIER, "helper", 36⟩, ⟨TKind.CLOSE_PAREN, "\x7d", 46⟩,
      ⟨TKind.IDENTIFIER, "trailing", 48⟩, ⟨TKind.CLOSE_PAREN, "\x7d", 60⟩] :
      List RawTok).take 2,
      rt.kind = TKind.FUNCSTART → (extractName rt.value).isSome) ∧
    (scanFunc "c9.ts" ⟨1, 0⟩ ⟨TKind.FUNCSTART, "function outer()\x7b", 1, 0⟩ []
      "outer" [] 1 []
      [⟨TKind.FUNCSTART, "function inner()\x7b", 18⟩,
        ⟨TKind.IDENTIFIER, "helper", 36⟩, ⟨TKind.CLOSE_PAREN, "\x7d", 46⟩,
        ⟨TKind.IDENTIFIER, "trailing", 48⟩, ⟨TKind.CLOSE_PAREN, "\x7d", 60⟩] =
      scanTop "c9.ts"
        (advanceLine ⟨1, 0⟩
          (([⟨TKind.FUNCSTART, "function inner()\x7b", 18⟩,
            ⟨TKind.IDENTIFIER, "helper", 36⟩, ⟨TKind.CLOSE_PAREN, "\x7d", 46⟩,
            ⟨TKind.IDENTIFIER, "trailing", 48⟩, ⟨TKind.CLOSE_PAREN, "\x7d", 60⟩] :
            List RawTok).take 3))
        (dinsert [] "outer" (idsAfter []
          (([⟨TKind.FUNCSTART, "function inner()\x7b", 18⟩,
            ⟨TKind.IDENTIFIER, "helper", 36⟩, ⟨TKind.CLOSE_PAREN, "\x7d", 46⟩,
            ⟨TKind.IDENTIFIER, "trailing", 48⟩, ⟨TKind.CLOSE_PAREN, "\x7d", 60⟩] :
            List RawTok).take 3)))
        (noticesAfter "c9.ts" []
          (([⟨TKind.FUNCSTART, "function inner()\x7b", 18⟩,
            ⟨TKind.IDENTIFIER, "helper", 36⟩, ⟨TKind.CLOSE_PAREN, "\x7d", 46⟩,
            ⟨TKind.IDENTIFIER, "trailing", 48⟩, ⟨TKind.CLOSE_PAREN, "\x7d", 60⟩] :
            List RawTok).take 3))
        (([⟨TKind.FUNCSTART, "function inner()\x7b", 18⟩,
          ⟨TKind.IDENTIFIER, "helper", 36⟩, ⟨TKind.CLOSE_PAREN, "\x7d", 46⟩,
          ⟨TKind.IDENTIFIER, "trailing", 48⟩, ⟨TKind.CLOSE_PAREN, "\x7d", 60⟩] :
          List RawTok).drop 3)) :=
  ⟨by decide, by decide, by decide, by decide, by decide,
    (C9_nested_head_depth_and_commit "c9.ts" 2).1
      [⟨TKind.FUNCSTART, "function inner()\x7b", 18⟩,
        ⟨TKind.IDENTIFIER, "helper", 36⟩, ⟨TKind.CLOSE_PAREN, "\x7d", 46⟩,
        ⟨TKind.IDENTIFIER, "trailing", 48⟩, ⟨TKind.CLOSE_PAREN, "\x7d", 60⟩]
      ⟨1, 0⟩ ⟨TKind.FUNCSTART, "function outer()\x7b", 1, 0⟩ [] "outer" [] 1 []
      (by decide) (by decide) (by decide) (by decide) (by decide)⟩


section RegexLemmas

theorem firstSome_none_right {α : Type} (a : Option α) : firstSome a none = a := by
  cases a <;> rfl

theorem firstSome_none_left {α : Type} (b : Option α) : firstSome none b = b := rfl

theorem isPrefixOf_append_self (l r : List Char) : l.isPrefixOf (l ++ r) = true := by
  induction l with
  | nil => simp
  | cons c cs ih => simp [List.isPrefixOf, ih]

theorem isPrefixOf_eq_append {l s : List Char} (h : l.isPrefixOf s = true) :
    ∃ r, s = l ++ r := by
  induction l generalizing s with
  | nil => exact ⟨s, rfl⟩
  | cons c cs ih =>
    cases s with
    | nil => simp [List.isPrefixOf] at h
    | cons b bs =>
      simp only [List.isPrefixOf, Bool.and_eq_true, beq_iff_eq] at h
      obtain ⟨r, hr⟩ := ih h.2
      refine ⟨r, ?_⟩
      rw [List.cons_append, ← h.1, hr]

theorem append_isPrefixOf_append (a b c : List Char) :
    (a ++ b).isPrefixOf (a ++ c) = b.isPrefixOf c := by
  induction a with
  | nil => rfl
  | cons x xs ih => simp [List.isPrefixOf, ih]

theorem isPrefixOf_of_append {a b s : List Char}
    (h : (a ++ b).isPrefixOf s = true) : a.isPrefixOf s = true := by
  obtain ⟨r, hr⟩ := isPrefixOf_eq_append h
  subst hr
  rw [List.append_assoc]
  exact isPrefixOf_append_self a (b ++ r)

theorem drop_append_len {α : Type} (u z : List α) (n : Nat) :
    (u ++ z).drop (u.length + n) = z.drop n := by
  induction u with
  | nil => simp
  | cons x xs ih =>
    rw [List.cons_append, List.length_cons]
    rw [show xs.length + 1 + n = (xs.length + n) + 1 by omega]
    rw [List.drop_succ_cons]
    exact ih

theorem takeWhile_append_sat {p : Char → Bool} {u : List Char} (z : List Char)
    (hu : ∀ x ∈ u, p x = true) :
    (u ++ z).takeWhile p = u ++ z.takeWhile p := by
  induction u with
  | nil => rfl
  | cons x xs ih =>
    rw [List.cons_append, List.takeWhile_cons, hu x (List.mem_cons_self x xs)]
    rw [ih (fun y hy => hu y (List.mem_cons_of_mem x hy))]
    rfl

theorem matchLitK_append {α : Type} (lit r : List Char) (k : List Char → Option α) :
    matchLitK lit (lit ++ r) k = k r := by
  unfold matchLitK
  rw [if_pos (isPrefixOf_append_self lit r), List.drop_left]

theorem matchLitK_neg {α : Type} {lit s : List Char} (k : List Char → Option α)
    (h : lit.isPrefixOf s = false) : matchLitK lit s k = none := by
  unfold matchLitK
  rw [if_neg (by simp [h])]

theorem matchLitK_single {α : Type} (c : Char) (s : List Char)
    (k : List Char → Option α) :
    matchLitK [c] s k =
      match s with
      | x :: r => if c = x then k r else none
      | [] => none := by
  cases s with
  | nil => rfl
  | cons x r =>
    by_cases hcx : c = x
    · unfold matchLitK
      rw [if_pos (by simp [List.isPrefixOf, hcx])]
      simp [hcx]
    · unfold matchLitK
      rw [if_neg (by simp [List.isPrefixOf, hcx])]
      simp [hcx]

theorem starBackK_nil {α : Type} (rest : List Char)
    (k : List Char → List Char → Option α) :
    starBackK [] rest k = k [] rest := rfl

theorem starBackK_cons {α : Type} (c' : Char) (rp rest : List Char)
    (k : List Char → List Char → Option α) :
    starBackK (c' :: rp) rest k =
      match k (c' :: rp).reverse rest with
      | some v => some v
      | none => starBackK rp (c' :: rest) k := rfl

theorem starBack_lit {α : Type} (p : Char → Bool) (c : Char) (hc : p c = false)
    (k : List Char → Option α) :
    ∀ rpref rest, (∀ x ∈ rpref, p x = true) →
      starBackK rpref rest (fun _ s1 => matchLitK [c] s1 k) =
        (match rest with
         | x :: r => if c = x then k r else none
         | [] => none) := by
  intro rpref
  induction rpref with
  | nil =>
    intro rest _
    rw [starBackK_nil]
    exact matchLitK_single c rest k
  | cons c' rp ih =>
    intro rest hall
    rw [starBackK_cons, matchLitK_single]
    cases hT : (match rest with
      | x :: r => if c = x then k r else none
      | [] => none) with
    | some v => rfl
    | none =>
      have hih := ih (c' :: rest) (fun y hy => hall y (List.mem_cons_of_mem c' hy))
      rw [hih]
      have hcc' : ¬(c = c') := by
        intro he
        have hp := hall c' (List.mem_cons_self c' rp)
        rw [← he, hc] at hp
        exact Bool.false_ne_true hp
      simp [hcc']


theorem drop_takeWhile_len (p : Char → Bool) (l : List Char) :
    l.drop (l.takeWhile p).length = l.dropWhile p := by
  induction l with
  | nil => rfl
  | cons x xs ih =>
    by_cases h : p x
    · simp [List.takeWhile_cons, List.dropWhile_cons, h, ih]
    · simp [List.takeWhile_cons, List.dropWhile_cons, h]

theorem notStop_of_ident {x : Char} (h : isIdentChar x = true) :
    notStopTail x = true := by
  by_cases h1 : x = rparChar
  · rw [h1] at h; exact absurd h (by decide)
  · by_cases h2 : x = semiChar
    · rw [h2] at h; exact absurd h (by decide)
    · simp [notStopTail, h1, h2]

theorem identChar_of_identStart {x : Char} (h : isIdentStart x = true) :
    isIdentChar x = true := by
  simp [isIdentChar, h]

theorem matchTailK_eq {α : Type} (s : List Char) (k : List Char → Option α) :
    matchTailK s k =
      match tailSplit s with
      | some rr => k rr
      | none => none := by
  simp only [matchTailK, starClsK, tailSplit]
  rw [starBack_lit notStopTail rparChar (by decide) _
    (s.takeWhile notStopTail).reverse (s.drop (s.takeWhile notStopTail).length)
    (fun x hx => List.mem_takeWhile_imp (List.mem_reverse.mp hx))]
  cases hdrop : s.drop (s.takeWhile notStopTail).length with
  | nil => rfl
  | cons x r1 =>
    simp only []
    by_cases hx : rparChar = x
    · rw [if_pos hx, if_pos hx.symm]
      rw [starBack_lit notBraceTail lbrace (by decide) _
        (r1.takeWhile notBraceTail).reverse (r1.drop (r1.takeWhile notBraceTail).length)
        (fun y hy => List.mem_takeWhile_imp (List.mem_reverse.mp hy))]
      cases hdrop2 : r1.drop (r1.takeWhile notBraceTail).length with
      | nil => rfl
      | cons y r2 =>
        simp only []
        by_cases hy : lbrace = y
        · rw [if_pos hy, if_pos hy.symm]
        · rw [if_neg hy, if_neg (fun h => hy h.symm)]
    · rw [if_neg hx, if_neg (fun h => hx h.symm)]

theorem tailSplit_append_neutral {u : List Char} (z : List Char)
    (hu : ∀ x ∈ u, notStopTail x = true) :
    tailSplit (u ++ z) = tailSplit z := by
  simp only [tailSplit]
  rw [takeWhile_append_sat z hu, List.length_append, drop_append_len]

theorem starBack_tail {α : Type} (g : List Char → List Char → α) :
    ∀ rpref rest, (∀ x ∈ rpref, notStopTail x = true) →
      starBackK rpref rest (fun w r =>
          match tailSplit r with
          | some rr => some (g w rr)
          | none => none) =
        match tailSplit rest with
        | some rr => some (g rpref.reverse rr)
        | none => none := by
  intro rpref
  induction rpref with
  | nil =>
    intro rest _
    rw [starBackK_nil]
    simp only [List.reverse_nil]
  | cons c' rp ih =>
    intro rest hall
    rw [starBackK_cons]
    cases hts : tailSplit rest with
    | some rr => simp only [hts]
    | none =>
      simp only [hts]
      have hn : tailSplit (c' :: rest) = none := by
        have hne := tailSplit_append_neutral (u := [c']) rest
          (fun x hx => by
            rw [List.mem_singleton.mp hx]
            exact hall c' (List.mem_cons_self c' rp))
        rw [List.singleton_append] at hne
        rw [hne, hts]
      have hih := ih (c' :: rest) (fun y hy => hall y (List.mem_cons_of_mem c' hy))
      rw [hih, hn]

theorem matchNameK_tail {α : Type} (g : List Char → List Char → α) (s : List Char) :
    matchNameK s (fun nm r =>
        match tailSplit r with
        | some rr => some (g nm rr)
        | none => none) =
      match s with
      | c :: rest =>
        if isIdentStart c then
          match tailSplit (rest.drop (rest.takeWhile isIdentChar).length) with
          | some rr => some (g (c :: rest.takeWhile isIdentChar) rr)
          | none => none
        else none
      | [] => none := by
  cases s with
  | nil => rfl
  | cons c rest =>
    simp only [matchNameK]
    by_cases hc : isIdentStart c
    · rw [if_pos hc, if_pos hc]
      simp only [starClsK]
      rw [starBack_tail (fun w rr => g (c :: w) rr)
        (rest.takeWhile isIdentChar).reverse
        (rest.drop (rest.takeWhile isIdentChar).length)
        (fun x hx => notStop_of_ident (List.mem_takeWhile_imp (List.mem_reverse.mp hx)))]
      rw [List.reverse_reverse]
    · rw [if_neg hc, if_neg hc]

theorem K_eq (L : Nat) (s1 : List Char) :
    matchLitK [spChar] s1 (fun s2 =>
      matchNameK s2 (fun nm s3 =>
        matchTailK s3 (fun s4 => some (L - s4.length, nm)))) = spaceName L s1 := by
  simp only [matchTailK_eq]
  rw [matchLitK_single]
  cases s1 with
  | nil => rfl
  | cons x s2 =>
    simp only []
    by_cases hx : spChar = x
    · rw [if_pos hx]
      rw [matchNameK_tail]
      simp only [spaceName]
      rw [if_pos hx.symm]
    · rw [if_neg hx]
      simp only [spaceName]
      rw [if_neg (fun h => hx h.symm)]

theorem spaceName_none_of_bad {L : Nat} {p : List Char}
    (h : spaceIdentB p = false) : spaceName L p = none := by
  cases p with
  | nil => rfl
  | cons x s2 =>
    cases s2 with
    | nil =>
      simp only [spaceName]
      by_cases hx : x = spChar
      · rw [if_pos hx]
      · rw [if_neg hx]
    | cons c rest =>
      simp only [spaceIdentB] at h
      simp only [spaceName]
      rcases Bool.and_eq_false_iff.mp h with hx | hc
      · rw [if_neg (by simpa using hx)]
      · by_cases hx2 : x = spChar
        · rw [if_pos hx2, if_neg (by simp [hc])]
        · rw [if_neg hx2]

theorem spaceName_none_iff {L : Nat} {p : List Char}
    (h : spaceIdentB p = true) : spaceName L p = none ↔ tailSplit p = none := by
  cases p with
  | nil => exact absurd h (by simp [spaceIdentB])
  | cons x s2 =>
    cases s2 with
    | nil => exact absurd h (by simp [spaceIdentB])
    | cons c rest =>
      simp only [spaceIdentB, Bool.and_eq_true, decide_eq_true_eq] at h
      obtain ⟨hx, hc⟩ := h
      subst hx
      simp only [spaceName, if_pos rfl, if_pos hc]
      have hsplit : tailSplit (spChar :: c :: rest) =
          tailSplit (rest.drop (rest.takeWhile isIdentChar).length) := by
        have hdecomp : spChar :: c :: rest =
            (spChar :: c :: rest.takeWhile isIdentChar) ++
              rest.drop (rest.takeWhile isIdentChar).length := by
          simp only [List.cons_append]
          rw [drop_takeWhile_len, List.takeWhile_append_dropWhile]
        conv_lhs => rw [hdecomp]
        exact tailSplit_append_neutral _ (fun y hy => by
          rcases List.mem_cons.mp hy with h1 | hy2
          · rw [h1]; decide
          rcases List.mem_cons.mp hy2 with h2 | h3
          · rw [h2]; exact notStop_of_ident (identChar_of_identStart hc)
          · exact notStop_of_ident (List.mem_takeWhile_imp h3))
      rw [hsplit]
      cases hX : tailSplit (rest.drop (rest.takeWhile isIdentChar).length) with
      | some rr => simp [hX]
      | none => simp [hX]

theorem nil_isPrefixOf (l : List Char) : ([] : List Char).isPrefixOf l = true := by simp

theorem firstSome_some {α : Type} (v : α) (b : Option α) :
    firstSome (some v) b = some v := rfl

theorem not_prefixOf_of_append {a b : List Char} (w : List Char)
    (h1 : a.isPrefixOf b = false) (h2 : b.isPrefixOf a = false) :
    a.isPrefixOf (b ++ w) = false := by
  induction a generalizing b with
  | nil => simp at h1
  | cons x xs ih =>
    cases b with
    | nil => simp at h2
    | cons y ys =>
      simp only [List.cons_append, List.isPrefixOf, Bool.and_eq_false_iff] at h1 ⊢
      rcases h1 with hxy | hpre
      · exact Or.inl hxy
      · by_cases hxy2 : (x == y) = false
        · exact Or.inl hxy2
        · refine Or.inr (ih hpre ?_)
          have hxy3 : x = y := by
            cases hxy4 : (x == y) with
            | false => exact absurd hxy4 hxy2
            | true => exact beq_iff_eq.mp hxy4
          subst hxy3
          simp only [List.isPrefixOf, Bool.and_eq_false_iff] at h2
          rcases h2 with hxx | h2
          · simp at hxx
          · exact h2

theorem k_align {α : Type} {k : List Char → Option α}
    (hk1 : ∀ p, spaceIdentB p = true → (k p = none ↔ tailSplit p = none))
    {u z : List Char} (hu : ∀ x ∈ u, notStopTail x = true)
    (h1 : spaceIdentB (u ++ z) = true) (h2 : spaceIdentB z = true) :
    (k (u ++ z) = none ↔ k z = none) := by
  rw [hk1 _ h1, hk1 _ h2, tailSplit_append_neutral z hu]

theorem async_static_decomp :
    " async static".toList = " async".toList ++ " static".toList := by decide

theorem asyncChars_neutral : ∀ x ∈ " async".toList, notStopTail x = true := by decide

theorem staticChars_neutral : ∀ x ∈ " static".toList, notStopTail x = true := by decide

theorem asyncStaticChars_neutral :
    ∀ x ∈ " async static".toList, notStopTail x = true := by decide

theorem spaceIdentB_async (w : List Char) :
    spaceIdentB (" async".toList ++ w) = true := by
  rw [show " async".toList = ' ' :: 'a' :: "sync".toList from by decide,
    List.cons_append, List.cons_append]
  simp only [spaceIdentB]
  decide

theorem spaceIdentB_static (w : List Char) :
    spaceIdentB (" static".toList ++ w) = true := by
  rw [show " static".toList = ' ' :: 's' :: "tatic".toList from by decide,
    List.cons_append, List.cons_append]
  simp only [spaceIdentB]
  decide

theorem static_npfx_async (w : List Char) :
    (" static".toList).isPrefixOf (" async".toList ++ w) = false :=
  not_prefixOf_of_append w (by decide) (by decide)

theorem async_npfx_static (w : List Char) :
    (" async".toList).isPrefixOf (" static".toList ++ w) = false :=
  not_prefixOf_of_append w (by decide) (by decide)

theorem asyncstatic_npfx_static (w : List Char) :
    (" async static".toList).isPrefixOf (" static".toList ++ w) = false :=
  not_prefixOf_of_append w (by decide) (by decide)

theorem extChoose_as_t {z13 : List Char} (h : spaceIdentB z13 = true) :
    extChoose (" async static".toList ++ z13) = some (" async static".toList) := by
  simp only [extChoose, extCands]
  exact List.find?_cons_of_pos _ (by
    simp only [List.drop_left, isPrefixOf_append_self, h, Bool.and_self])

theorem extChoose_as_f {z13 : List Char} (h : spaceIdentB z13 = false) :
    extChoose (" async static".toList ++ z13) = some (" async".toList) := by
  have hassoc : " async static".toList ++ z13 =
      " async".toList ++ (" static".toList ++ z13) := by
    rw [async_static_decomp, List.append_assoc]
  simp only [extChoose, extCands]
  rw [List.find?_cons_of_neg _ (by
    simp only [List.drop_left, h, Bool.false_and, not_false_eq_true,
      Bool.false_eq_true])]
  exact List.find?_cons_of_pos _ (by
    rw [hassoc, List.drop_left, isPrefixOf_append_self, spaceIdentB_static,
      Bool.and_self])

theorem extChoose_a_t {z6 : List Char}
    (hS : (" static".toList).isPrefixOf z6 = false) (h : spaceIdentB z6 = true) :
    extChoose (" async".toList ++ z6) = some (" async".toList) := by
  simp only [extChoose, extCands]
  rw [List.find?_cons_of_neg _ (by
    rw [async_static_decomp, append_isPrefixOf_append, hS, Bool.and_false]
    simp)]
  exact List.find?_cons_of_pos _ (by
    rw [List.drop_left, isPrefixOf_append_self, h, Bool.and_self])

theorem extChoose_a_f {z6 : List Char}
    (hS : (" static".toList).isPrefixOf z6 = false) (h : spaceIdentB z6 = false) :
    extChoose (" async".toList ++ z6) = some ([] : List Char) := by
  simp only [extChoose, extCands]
  rw [List.find?_cons_of_neg _ (by
    rw [async_static_decomp, append_isPrefixOf_append, hS, Bool.and_false]
    simp)]
  rw [List.find?_cons_of_neg _ (by
    rw [List.drop_left, h, Bool.false_and]
    simp)]
  rw [List.find?_cons_of_neg _ (by
    rw [static_npfx_async, Bool.and_false]
    simp)]
  exact List.find?_cons_of_pos _ (by
    rw [List.length_nil, List.drop_zero, spaceIdentB_async, nil_isPrefixOf,
      Bool.and_self])

theorem extChoose_s_t {z7 : List Char} (h : spaceIdentB z7 = true) :
    extChoose (" static".toList ++ z7) = some (" static".toList) := by
  simp only [extChoose, extCands]
  rw [List.find?_cons_of_neg _ (by
    rw [asyncstatic_npfx_static, Bool.and_false]
    simp)]
  rw [List.find?_cons_of_neg _ (by
    rw [async_npfx_static, Bool.and_false]
    simp)]
  exact List.find?_cons_of_pos _ (by
    rw [List.drop_left, isPrefixOf_append_self, h, Bool.and_self])

theorem extChoose_s_f {z7 : List Char} (h : spaceIdentB z7 = false) :
    extChoose (" static".toList ++ z7) = some ([] : List Char) := by
  simp only [extChoose, extCands]
  rw [List.find?_cons_of_neg _ (by
    rw [asyncstatic_npfx_static, Bool.and_false]
    simp)]
  rw [List.find?_cons_of_neg _ (by
    rw [async_npfx_static, Bool.and_false]
    simp)]
  rw [List.find?_cons_of_neg _ (by
    rw [List.drop_left, h, Bool.false_and]
    simp)]
  exact List.find?_cons_of_pos _ (by
    rw [List.length_nil, List.drop_zero, spaceIdentB_static, nil_isPrefixOf,
      Bool.and_self])

theorem extChoose_plain_t {z : List Char}
    (hA : (" async".toList).isPrefixOf z = false)
    (hS : (" static".toList).isPrefixOf z = false) (h : spaceIdentB z = true) :
    extChoose z = some ([] : List Char) := by
  have hAS : (" async static".toList).isPrefixOf z = false := by
    cases hq : (" async static".toList).isPrefixOf z with
    | false => rfl
    | true =>
      rw [async_static_decomp] at hq
      have h' := isPrefixOf_of_append hq
      rw [hA] at h'
      exact absurd h' (by simp)
  simp only [extChoose, extCands]
  rw [List.find?_cons_of_neg _ (by rw [hAS, Bool.and_false]; simp)]
  rw [List.find?_cons_of_neg _ (by rw [hA, Bool.and_false]; simp)]
  rw [List.find?_cons_of_neg _ (by rw [hS, Bool.and_false]; simp)]
  exact List.find?_cons_of_pos _ (by
    rw [List.length_nil, List.drop_zero, h, nil_isPrefixOf, Bool.and_self])

theorem extChoose_plain_f {z : List Char}
    (hA : (" async".toList).isPrefixOf z = false)
    (hS : (" static".toList).isPrefixOf z = false) (h : spaceIdentB z = false) :
    extChoose z = none := by
  have hAS : (" async static".toList).isPrefixOf z = false := by
    cases hq : (" async static".toList).isPrefixOf z with
    | false => rfl
    | true =>
      rw [async_static_decomp] at hq
      have h' := isPrefixOf_of_append hq
      rw [hA] at h'
      exact absurd h' (by simp)
  simp only [extChoose, extCands]
  rw [List.find?_cons_of_neg _ (by rw [hAS, Bool.and_false]; simp)]
  rw [List.find?_cons_of_neg _ (by rw [hA, Bool.and_false]; simp)]
  rw [List.find?_cons_of_neg _ (by rw [hS, Bool.and_false]; simp)]
  rw [List.find?_cons_of_neg _ (by
    rw [List.length_nil, List.drop_zero, h, Bool.false_and]
    simp)]
  rfl

theorem alt2Branch_eq {α : Type} (k : List Char → Option α) (z : List Char)
    (hk0 : ∀ p, spaceIdentB p = false → k p = none)
    (hk1 : ∀ p, spaceIdentB p = true → (k p = none ↔ tailSplit p = none)) :
    matchOptLitK " async".toList z (fun s2 => matchOptLitK " static".toList s2 k) =
      match extChoose z with
      | some ext => k (z.drop ext.length)
      | none => none := by
  simp only [matchOptLitK]
  cases hA : (" async".toList).isPrefixOf z with
  | true =>
    obtain ⟨z6, rfl⟩ := isPrefixOf_eq_append hA
    simp only [matchLitK_append]
    rw [matchLitK_neg k (static_npfx_async z6), firstSome_none_left]
    cases hS : (" static".toList).isPrefixOf z6 with
    | true =>
      obtain ⟨z13, rfl⟩ := isPrefixOf_eq_append hS
      simp only [matchLitK_append]
      rw [show " async".toList ++ (" static".toList ++ z13) =
        " async static".toList ++ z13 from by
          rw [async_static_decomp, List.append_assoc]]
      cases hsp : spaceIdentB z13 with
      | true =>
        rw [extChoose_as_t hsp]
        simp only [List.drop_left]
        cases hkz : k z13 with
        | some v => rw [firstSome_some, firstSome_some]
        | none =>
          have hstat : k (" static".toList ++ z13) = none :=
            (k_align hk1 staticChars_neutral (spaceIdentB_static z13) hsp).mpr hkz
          rw [firstSome_none_left, hstat, firstSome_none_left]
          rw [async_static_decomp, List.append_assoc]
          exact (k_align hk1 asyncChars_neutral (spaceIdentB_async _)
            (spaceIdentB_static _)).mpr hstat
      | false =>
        rw [extChoose_as_f hsp]
        simp only []
        rw [show (" async static".toList ++ z13).drop (" async".toList).length =
          " static".toList ++ z13 from by
            rw [async_static_decomp, List.append_assoc, List.drop_left]]
        rw [hk0 z13 hsp, firstSome_none_left]
        cases hks : k (" static".toList ++ z13) with
        | some v => rw [firstSome_some]
        | none =>
          rw [firstSome_none_left]
          rw [async_static_decomp, List.append_assoc]
          exact (k_align hk1 asyncChars_neutral (spaceIdentB_async _)
            (spaceIdentB_static _)).mpr hks
    | false =>
      rw [matchLitK_neg k hS, firstSome_none_left]
      cases hsp : spaceIdentB z6 with
      | true =>
        rw [extChoose_a_t hS hsp]
        simp only [List.drop_left]
        cases hkz : k z6 with
        | some v => rw [firstSome_some]
        | none =>
          rw [firstSome_none_left]
          exact (k_align hk1 asyncChars_neutral (spaceIdentB_async z6) hsp).mpr hkz
      | false =>
        rw [extChoose_a_f hS hsp]
        simp only [List.length_nil, List.drop_zero]
        rw [hk0 z6 hsp, firstSome_none_left]
  | false =>
    rw [matchLitK_neg _ hA, firstSome_none_left]
    cases hS : (" static".toList).isPrefixOf z with
    | true =>
      obtain ⟨z7, rfl⟩ := isPrefixOf_eq_append hS
      simp only [matchLitK_append]
      cases hsp : spaceIdentB z7 with
      | true =>
        rw [extChoose_s_t hsp]
        simp only [List.drop_left]
        cases hkz : k z7 with
        | some v => rw [firstSome_some]
        | none =>
          rw [firstSome_none_left]
          exact (k_align hk1 staticChars_neutral (spaceIdentB_static z7) hsp).mpr hkz
      | false =>
        rw [extChoose_s_f hsp]
        simp only [List.length_nil, List.drop_zero]
        rw [hk0 z7 hsp, firstSome_none_left]
    | false =>
      rw [matchLitK_neg _ hS, firstSome_none_left]
      cases hsp : spaceIdentB z with
      | true =>
        rw [extChoose_plain_t hA hS hsp]
        simp only [List.length_nil, List.drop_zero]
      | false =>
        rw [extChoose_plain_f hA hS hsp]
        simp only []
        exact hk0 z hsp

theorem qualAccepts_false_of_npfx {s q : List Char} (h : q.isPrefixOf s = false) :
    qualAccepts s q = false := by rw [qualAccepts, h, Bool.and_false]

theorem neg_of_eq_false {b : Bool} (h : b = false) : ¬ (b = true) := by
  rw [h]; simp

theorem qualAccepts_neg {s q : List Char} (h : q.isPrefixOf s = false) :
    ¬ (qualAccepts s q = true) := neg_of_eq_false (qualAccepts_false_of_npfx h)

theorem npfx_extend {a b w : List Char} (h : a.isPrefixOf w = false) :
    (a ++ b).isPrefixOf w = false := by
  cases hq : (a ++ b).isPrefixOf w with
  | false => rfl
  | true =>
    have h2 := isPrefixOf_of_append hq
    rw [h] at h2
    exact absurd h2 (by simp)

theorem drop_len_append (u a z : List Char) :
    (u ++ z).drop (u ++ a).length = z.drop a.length := by
  rw [List.length_append, drop_append_len]

theorem pubAS_decomp :
    "public async static".toList = "public".toList ++ " async static".toList := by decide

theorem pubA_decomp :
    "public async".toList = "public".toList ++ " async".toList := by decide

theorem pubS_decomp :
    "public static".toList = "public".toList ++ " static".toList := by decide

theorem privAS_decomp :
    "private async static".toList = "private".toList ++ " async static".toList := by decide

theorem privA_decomp :
    "private async".toList = "private".toList ++ " async".toList := by decide

theorem privS_decomp :
    "private static".toList = "private".toList ++ " static".toList := by decide

theorem eaf_decomp :
    "export async function".toList = "export ".toList ++ "async function".toList := by decide

theorem ef_decomp :
    "export function".toList = "export ".toList ++ "function".toList := by decide

theorem af_decomp :
    "async function".toList = "async ".toList ++ "function".toList := by decide

theorem chosenQual_none_of_roots {s : List Char}
    (h1 : qualAccepts s "export async function".toList = false)
    (h2 : qualAccepts s "export function".toList = false)
    (h3 : qualAccepts s "async function".toList = false)
    (h4 : qualAccepts s "function".toList = false)
    (h5 : ("public".toList).isPrefixOf s = false)
    (h6 : ("private".toList).isPrefixOf s = false) :
    chosenQual s = none := by
  rw [chosenQual, qualCands]
  rw [List.find?_cons_of_neg _ (neg_of_eq_false h1)]
  rw [List.find?_cons_of_neg _ (neg_of_eq_false h2)]
  rw [List.find?_cons_of_neg _ (neg_of_eq_false h3)]
  rw [List.find?_cons_of_neg _ (neg_of_eq_false h4)]
  rw [List.find?_cons_of_neg _ (qualAccepts_neg (by rw [pubAS_decomp]; exact npfx_extend h5))]
  rw [List.find?_cons_of_neg _ (qualAccepts_neg (by rw [pubA_decomp]; exact npfx_extend h5))]
  rw [List.find?_cons_of_neg _ (qualAccepts_neg (by rw [pubS_decomp]; exact npfx_extend h5))]
  rw [List.find?_cons_of_neg _ (qualAccepts_neg h5)]
  rw [List.find?_cons_of_neg _ (qualAccepts_neg (by rw [privAS_decomp]; exact npfx_extend h6))]
  rw [List.find?_cons_of_neg _ (qualAccepts_neg (by rw [privA_decomp]; exact npfx_extend h6))]
  rw [List.find?_cons_of_neg _ (qualAccepts_neg (by rw [privS_decomp]; exact npfx_extend h6))]
  rw [List.find?_cons_of_neg _ (qualAccepts_neg h6)]
  rfl

theorem chosenQual_public (zp : List Char) :
    chosenQual ("public".toList ++ zp) =
      (extChoose zp).map (fun ext => "public".toList ++ ext) := by
  rw [chosenQual, qualCands, extChoose, extCands]
  rw [List.find?_cons_of_neg _ (qualAccepts_neg
    (not_prefixOf_of_append zp (by decide) (by decide) :
      ("export async function".toList).isPrefixOf ("public".toList ++ zp) = false))]
  rw [List.find?_cons_of_neg _ (qualAccepts_neg
    (not_prefixOf_of_append zp (by decide) (by decide) :
      ("export function".toList).isPrefixOf ("public".toList ++ zp) = false))]
  rw [List.find?_cons_of_neg _ (qualAccepts_neg
    (not_prefixOf_of_append zp (by decide) (by decide) :
      ("async function".toList).isPrefixOf ("public".toList ++ zp) = false))]
  rw [List.find?_cons_of_neg _ (qualAccepts_neg
    (not_prefixOf_of_append zp (by decide) (by decide) :
      ("function".toList).isPrefixOf ("public".toList ++ zp) = false))]
  have he1 : qualAccepts ("public".toList ++ zp) ("public async static".toList) =
      (fun ext => spaceIdentB (zp.drop ext.length) && ext.isPrefixOf zp) (" async static".toList) := by
    rw [qualAccepts, pubAS_decomp, drop_len_append, append_isPrefixOf_append]
  cases h1 : (fun ext => spaceIdentB (zp.drop ext.length) && ext.isPrefixOf zp) (" async static".toList) with
  | true =>
    rw [List.find?_cons_of_pos _ (by rw [he1]; exact h1),
      @List.find?_cons_of_pos _ (fun ext => spaceIdentB (zp.drop ext.length) && ext.isPrefixOf zp) (" async static".toList) _ h1,
      Option.map_some']
    rw [pubAS_decomp]
  | false =>
    rw [List.find?_cons_of_neg _ (neg_of_eq_false (by rw [he1]; exact h1)),
      @List.find?_cons_of_neg _ (fun ext => spaceIdentB (zp.drop ext.length) && ext.isPrefixOf zp) (" async static".toList) _ (neg_of_eq_false h1)]
    have he2 : qualAccepts ("public".toList ++ zp) ("public async".toList) =
        (fun ext => spaceIdentB (zp.drop ext.length) && ext.isPrefixOf zp) (" async".toList) := by
      rw [qualAccepts, pubA_decomp, drop_len_append, append_isPrefixOf_append]
    cases h2 : (fun ext => spaceIdentB (zp.drop ext.length) && ext.isPrefixOf zp) (" async".toList) with
    | true =>
      rw [List.find?_cons_of_pos _ (by rw [he2]; exact h2),
        @List.find?_cons_of_pos _ (fun ext => spaceIdentB (zp.drop ext.length) && ext.isPrefixOf zp) (" async".toList) _ h2,
        Option.map_some']
      rw [pubA_decomp]
    | false =>
      rw [List.find?_cons_of_neg _ (neg_of_eq_false (by rw [he2]; exact h2)),
        @List.find?_cons_of_neg _ (fun ext => spaceIdentB (zp.drop ext.length) && ext.isPrefixOf zp) (" async".toList) _ (neg_of_eq_false h2)]
      have he3 : qualAccepts ("public".toList ++ zp) ("public static".toList) =
          (fun ext => spaceIdentB (zp.drop ext.length) && ext.isPrefixOf zp) (" static".toList) := by
        rw [qualAccepts, pubS_decomp, drop_len_append, append_isPrefixOf_append]
      cases h3 : (fun ext => spaceIdentB (zp.drop ext.length) && ext.isPrefixOf zp) (" static".toList) with
      | true =>
        rw [List.find?_cons_of_pos _ (by rw [he3]; exact h3),
          @List.find?_cons_of_pos _ (fun ext => spaceIdentB (zp.drop ext.length) && ext.isPrefixOf zp) (" static".toList) _ h3,
          Option.map_some']
        rw [pubS_decomp]
      | false =>
        rw [List.find?_cons_of_neg _ (neg_of_eq_false (by rw [he3]; exact h3)),
          @List.find?_cons_of_neg _ (fun ext => spaceIdentB (zp.drop ext.length) && ext.isPrefixOf zp) (" static".toList) _ (neg_of_eq_false h3)]
        have he4 : qualAccepts ("public".toList ++ zp) ("public".toList) =
            (fun ext => spaceIdentB (zp.drop ext.length) && ext.isPrefixOf zp) ([] : List Char) := by
          rw [qualAccepts, List.drop_left, isPrefixOf_append_self, Bool.and_true]
          show spaceIdentB zp = (spaceIdentB (zp.drop ([] : List Char).length) &&
            ([] : List Char).isPrefixOf zp)
          rw [List.length_nil, List.drop_zero, nil_isPrefixOf, Bool.and_true]
        cases h4 : (fun ext => spaceIdentB (zp.drop ext.length) && ext.isPrefixOf zp) ([] : List Char) with
        | true =>
          rw [List.find?_cons_of_pos _ (by rw [he4]; exact h4),
            @List.find?_cons_of_pos _ (fun ext => spaceIdentB (zp.drop ext.length) && ext.isPrefixOf zp) ([] : List Char) _ h4, Option.map_some']
          simp
        | false =>
          rw [List.find?_cons_of_neg _ (neg_of_eq_false (by rw [he4]; exact h4)),
            @List.find?_cons_of_neg _ (fun ext => spaceIdentB (zp.drop ext.length) && ext.isPrefixOf zp) ([] : List Char) _ (neg_of_eq_false h4)]
          rw [List.find?_cons_of_neg _ (qualAccepts_neg
            (not_prefixOf_of_append zp (by decide) (by decide) :
              ("private async static".toList).isPrefixOf ("public".toList ++ zp) = false))]
          rw [List.find?_cons_of_neg _ (qualAccepts_neg
            (not_prefixOf_of_append zp (by decide) (by decide) :
              ("private async".toList).isPrefixOf ("public".toList ++ zp) = false))]
          rw [List.find?_cons_of_neg _ (qualAccepts_neg
            (not_prefixOf_of_append zp (by decide) (by decide) :
              ("private static".toList).isPrefixOf ("public".toList ++ zp) = false))]
          rw [List.find?_cons_of_neg _ (qualAccepts_neg
            (not_prefixOf_of_append zp (by decide) (by decide) :
              ("private".toList).isPrefixOf ("public".toList ++ zp) = false))]
          rfl

theorem chosenQual_private (zp : List Char) :
    chosenQual ("private".toList ++ zp) =
      (extChoose zp).map (fun ext => "private".toList ++ ext) := by
  rw [chosenQual, qualCands, extChoose, extCands]
  rw [List.find?_cons_of_neg _ (qualAccepts_neg
    (not_prefixOf_of_append zp (by decide) (by decide) :
      ("export async function".toList).isPrefixOf ("private".toList ++ zp) = false))]
  rw [List.find?_cons_of_neg _ (qualAccepts_neg
    (not_prefixOf_of_append zp (by decide) (by decide) :
      ("export function".toList).isPrefixOf ("private".toList ++ zp) = false))]
  rw [List.find?_cons_of_neg _ (qualAccepts_neg
    (not_prefixOf_of_append zp (by decide) (by decide) :
      ("async function".toList).isPrefixOf ("private".toList ++ zp) = false))]
  rw [List.find?_cons_of_neg _ (qualAccepts_neg
    (not_prefixOf_of_append zp (by decide) (by decide) :
      ("function".toList).isPrefixOf ("private".toList ++ zp) = false))]
  rw [List.find?_cons_of_neg _ (qualAccepts_neg
    (not_prefixOf_of_append zp (by decide) (by decide) :
      ("public async static".toList).isPrefixOf ("private".toList ++ zp) = false))]
  rw [List.find?_cons_of_neg _ (qualAccepts_neg
    (not_prefixOf_of_append zp (by decide) (by decide) :
      ("public async".toList).isPrefixOf ("private".toList ++ zp) = false))]
  rw [List.find?_cons_of_neg _ (qualAccepts_neg
    (not_prefixOf_of_append zp (by decide) (by decide) :
      ("public static".toList).isPrefixOf ("private".toList ++ zp) = false))]
  rw [List.find?_cons_of_neg _ (qualAccepts_neg
    (not_prefixOf_of_append zp (by decide) (by decide) :
      ("public".toList).isPrefixOf ("private".toList ++ zp) = false))]
  have he1 : qualAccepts ("private".toList ++ zp) ("private async static".toList) =
      (fun ext => spaceIdentB (zp.drop ext.length) && ext.isPrefixOf zp) (" async static".toList) := by
    rw [qualAccepts, privAS_decomp, drop_len_append, append_isPrefixOf_append]
  cases h1 : (fun ext => spaceIdentB (zp.drop ext.length) && ext.isPrefixOf zp) (" async static".toList) with
  | true =>
    rw [List.find?_cons_of_pos _ (by rw [he1]; exact h1),
      @List.find?_cons_of_pos _ (fun ext => spaceIdentB (zp.drop ext.length) && ext.isPrefixOf zp) (" async static".toList) _ h1,
      Option.map_some']
    rw [privAS_decomp]
  | false =>
    rw [List.find?_cons_of_neg _ (neg_of_eq_false (by rw [he1]; exact h1)),
      @List.find?_cons_of_neg _ (fun ext => spaceIdentB (zp.drop ext.length) && ext.isPrefixOf zp) (" async static".toList) _ (neg_of_eq_false h1)]
    have he2 : qualAccepts ("private".toList ++ zp) ("private async".toList) =
        (fun ext => spaceIdentB (zp.drop ext.length) && ext.isPrefixOf zp) (" async".toList) := by
      rw [qualAccepts, privA_decomp, drop_len_append, append_isPrefixOf_append]
    cases h2 : (fun ext => spaceIdentB (zp.drop ext.length) && ext.isPrefixOf zp) (" async".toList) with
    | true =>
      rw [List.find?_cons_of_pos _ (by rw [he2]; exact h2),
        @List.find?_cons_of_pos _ (fun ext => spaceIdentB (zp.drop ext.length) && ext.isPrefixOf zp) (" async".toList) _ h2,
        Option.map_some']
      rw [privA_decomp]
    | false =>
      rw [List.find?_cons_of_neg _ (neg_of_eq_false (by rw [he2]; exact h2)),
        @List.find?_cons_of_neg _ (fun ext => spaceIdentB (zp.drop ext.length) && ext.isPrefixOf zp) (" async".toList) _ (neg_of_eq_false h2)]
      have he3 : qualAccepts ("private".toList ++ zp) ("private static".toList) =
          (fun ext => spaceIdentB (zp.drop ext.length) && ext.isPrefixOf zp) (" static".toList) := by
        rw [qualAccepts, privS_decomp, drop_len_append, append_isPrefixOf_append]
      cases h3 : (fun ext => spaceIdentB (zp.drop ext.length) && ext.isPrefixOf zp) (" static".toList) with
      | true =>
        rw [List.find?_cons_of_pos _ (by rw [he3]; exact h3),
          @List.find?_cons_of_pos _ (fun ext => spaceIdentB (zp.drop ext.length) && ext.isPrefixOf zp) (" static".toList) _ h3,
          Option.map_some']
        rw [privS_decomp]
      | false =>
        rw [List.find?_cons_of_neg _ (neg_of_eq_false (by rw [he3]; exact h3)),
          @List.find?_cons_of_neg _ (fun ext => spaceIdentB (zp.drop ext.length) && ext.isPrefixOf zp) (" static".toList) _ (neg_of_eq_false h3)]
        have he4 : qualAccepts ("private".toList ++ zp) ("private".toList) =
            (fun ext => spaceIdentB (zp.drop ext.length) && ext.isPrefixOf zp) ([] : List Char) := by
          rw [qualAccepts, List.drop_left, isPrefixOf_append_self, Bool.and_true]
          show spaceIdentB zp = (spaceIdentB (zp.drop ([] : List Char).length) &&
            ([] : List Char).isPrefixOf zp)
          rw [List.length_nil, List.drop_zero, nil_isPrefixOf, Bool.and_true]
        cases h4 : (fun ext => spaceIdentB (zp.drop ext.length) && ext.isPrefixOf zp) ([] : List Char) with
        | true =>
          rw [List.find?_cons_of_pos _ (by rw [he4]; exact h4),
            @List.find?_cons_of_pos _ (fun ext => spaceIdentB (zp.drop ext.length) && ext.isPrefixOf zp) ([] : List Char) _ h4, Option.map_some']
          simp
        | false =>
          rw [List.find?_cons_of_neg _ (neg_of_eq_false (by rw [he4]; exact h4)),
            @List.find?_cons_of_neg _ (fun ext => spaceIdentB (zp.drop ext.length) && ext.isPrefixOf zp) ([] : List Char) _ (neg_of_eq_false h4)]
          rfl

theorem alt2Branch_eq2 {α : Type} (k : List Char → Option α) (z : List Char)
    (hk0 : ∀ p, spaceIdentB p = false → k p = none)
    (hk1 : ∀ p, spaceIdentB p = true → (k p = none ↔ tailSplit p = none)) :
    firstSome (matchLitK " async".toList z (fun s2 =>
        firstSome (matchLitK " static".toList s2 k) (k s2)))
      (firstSome (matchLitK " static".toList z k) (k z)) =
      match extChoose z with
      | some ext => k (z.drop ext.length)
      | none => none := alt2Branch_eq k z hk0 hk1

theorem matchQualK_eq {α : Type} (k : List Char → Option α) (s : List Char)
    (hk0 : ∀ p, spaceIdentB p = false → k p = none)
    (hk1 : ∀ p, spaceIdentB p = true → (k p = none ↔ tailSplit p = none)) :
    matchQualK s k =
      match chosenQual s with
      | some Q => k (s.drop Q.length)
      | none => none := by
  simp only [matchQualK, matchOptLitK]
  cases hE : ("export ".toList).isPrefixOf s with
  | true =>
    obtain ⟨w, rfl⟩ := isPrefixOf_eq_append hE
    rw [matchLitK_neg _ (not_prefixOf_of_append w (by decide) (by decide) :
      ("async ".toList).isPrefixOf ("export ".toList ++ w) = false)]
    rw [matchLitK_neg k (not_prefixOf_of_append w (by decide) (by decide) :
      ("function".toList).isPrefixOf ("export ".toList ++ w) = false)]
    rw [matchLitK_neg _ (not_prefixOf_of_append w (by decide) (by decide) :
      ("public".toList).isPrefixOf ("export ".toList ++ w) = false)]
    rw [matchLitK_neg _ (not_prefixOf_of_append w (by decide) (by decide) :
      ("private".toList).isPrefixOf ("export ".toList ++ w) = false)]
    simp only [matchLitK_append, firstSome_none_left, firstSome_none_right]
    cases hA2 : ("async ".toList).isPrefixOf w with
    | true =>
      obtain ⟨w2, rfl⟩ := isPrefixOf_eq_append hA2
      rw [matchLitK_neg k (not_prefixOf_of_append w2 (by decide) (by decide) :
        ("function".toList).isPrefixOf ("async ".toList ++ w2) = false)]
      simp only [matchLitK_append, firstSome_none_right]
      cases hFn : ("function".toList).isPrefixOf w2 with
      | true =>
        obtain ⟨z, rfl⟩ := isPrefixOf_eq_append hFn
        simp only [matchLitK_append]
        rw [show "export ".toList ++ ("async ".toList ++ ("function".toList ++ z)) =
          "export async function".toList ++ z from by
            rw [eaf_decomp, af_decomp, List.append_assoc, List.append_assoc]]
        cases hsp : spaceIdentB z with
        | true =>
          have hcq : chosenQual ("export async function".toList ++ z) =
              some ("export async function".toList) := by
            rw [chosenQual, qualCands]
            exact List.find?_cons_of_pos _ (by
              rw [qualAccepts, List.drop_left, isPrefixOf_append_self, hsp, Bool.and_self])
          rw [hcq]
          simp only [List.drop_left]
        | false =>
          have hcq : chosenQual ("export async function".toList ++ z) = none :=
            chosenQual_none_of_roots
              (by rw [qualAccepts, List.drop_left, hsp, Bool.false_and])
              (qualAccepts_false_of_npfx (by
                rw [show "export async function".toList ++ z =
                  "export ".toList ++ ("async function".toList ++ z) from by
                    rw [eaf_decomp, List.append_assoc],
                  ef_decomp, append_isPrefixOf_append]
                exact not_prefixOf_of_append z (by decide) (by decide)))
              (qualAccepts_false_of_npfx (not_prefixOf_of_append z (by decide) (by decide)))
              (qualAccepts_false_of_npfx (not_prefixOf_of_append z (by decide) (by decide)))
              (not_prefixOf_of_append z (by decide) (by decide))
              (not_prefixOf_of_append z (by decide) (by decide))
          rw [hcq]
          exact hk0 z hsp
      | false =>
        rw [matchLitK_neg k hFn]
        have hcq : chosenQual ("export ".toList ++ ("async ".toList ++ w2)) = none :=
          chosenQual_none_of_roots
            (qualAccepts_false_of_npfx (by
              rw [eaf_decomp, append_isPrefixOf_append, af_decomp, append_isPrefixOf_append]
              exact hFn))
            (qualAccepts_false_of_npfx (by
              rw [ef_decomp, append_isPrefixOf_append]
              exact not_prefixOf_of_append w2 (by decide) (by decide)))
            (qualAccepts_false_of_npfx (not_prefixOf_of_append _ (by decide) (by decide)))
            (qualAccepts_false_of_npfx (not_prefixOf_of_append _ (by decide) (by decide)))
            (not_prefixOf_of_append _ (by decide) (by decide))
            (not_prefixOf_of_append _ (by decide) (by decide))
        rw [hcq]
    | false =>
      rw [matchLitK_neg _ hA2, firstSome_none_left]
      cases hFn : ("function".toList).isPrefixOf w with
      | true =>
        obtain ⟨z, rfl⟩ := isPrefixOf_eq_append hFn
        simp only [matchLitK_append]
        rw [show "export ".toList ++ ("function".toList ++ z) =
          "export function".toList ++ z from by rw [ef_decomp, List.append_assoc]]
        cases hsp : spaceIdentB z with
        | true =>
          have hcq : chosenQual ("export function".toList ++ z) =
              some ("export function".toList) := by
            rw [chosenQual, qualCands]
            rw [List.find?_cons_of_neg _ (qualAccepts_neg (by
              rw [show "export function".toList ++ z =
                "export ".toList ++ ("function".toList ++ z) from by
                  rw [ef_decomp, List.append_assoc],
                eaf_decomp, append_isPrefixOf_append]
              exact not_prefixOf_of_append z (by decide) (by decide)))]
            exact List.find?_cons_of_pos _ (by
              rw [qualAccepts, List.drop_left, isPrefixOf_append_self, hsp, Bool.and_self])
          rw [hcq]
          simp only [List.drop_left]
        | false =>
          have hcq : chosenQual ("export function".toList ++ z) = none :=
            chosenQual_none_of_roots
              (qualAccepts_false_of_npfx (by
                rw [show "export function".toList ++ z =
                  "export ".toList ++ ("function".toList ++ z) from by
                    rw [ef_decomp, List.append_assoc],
                  eaf_decomp, append_isPrefixOf_append]
                exact not_prefixOf_of_append z (by decide) (by decide)))
              (by rw [qualAccepts, List.drop_left, hsp, Bool.false_and])
              (qualAccepts_false_of_npfx (not_prefixOf_of_append z (by decide) (by decide)))
              (qualAccepts_false_of_npfx (not_prefixOf_of_append z (by decide) (by decide)))
              (not_prefixOf_of_append z (by decide) (by decide))
              (not_prefixOf_of_append z (by decide) (by decide))
          rw [hcq]
          exact hk0 z hsp
      | false =>
        rw [matchLitK_neg k hFn]
        have hcq : chosenQual ("export ".toList ++ w) = none :=
          chosenQual_none_of_roots
            (qualAccepts_false_of_npfx (by
              rw [eaf_decomp, append_isPrefixOf_append, af_decomp]
              exact npfx_extend hA2))
            (qualAccepts_false_of_npfx (by
              rw [ef_decomp, append_isPrefixOf_append]
              exact hFn))
            (qualAccepts_false_of_npfx (not_prefixOf_of_append _ (by decide) (by decide)))
            (qualAccepts_false_of_npfx (not_prefixOf_of_append _ (by decide) (by decide)))
            (not_prefixOf_of_append _ (by decide) (by decide))
            (not_prefixOf_of_append _ (by decide) (by decide))
        rw [hcq]
  | false =>
    rw [matchLitK_neg _ hE, firstSome_none_left]
    cases hA2 : ("async ".toList).isPrefixOf s with
    | true =>
      obtain ⟨w2, rfl⟩ := isPrefixOf_eq_append hA2
      rw [matchLitK_neg k (not_prefixOf_of_append w2 (by decide) (by decide) :
        ("function".toList).isPrefixOf ("async ".toList ++ w2) = false)]
      rw [matchLitK_neg _ (not_prefixOf_of_append w2 (by decide) (by decide) :
        ("public".toList).isPrefixOf ("async ".toList ++ w2) = false)]
      rw [matchLitK_neg _ (not_prefixOf_of_append w2 (by decide) (by decide) :
        ("private".toList).isPrefixOf ("async ".toList ++ w2) = false)]
      simp only [matchLitK_append, firstSome_none_left, firstSome_none_right]
      cases hFn : ("function".toList).isPrefixOf w2 with
      | true =>
        obtain ⟨z, rfl⟩ := isPrefixOf_eq_append hFn
        simp only [matchLitK_append]
        rw [show "async ".toList ++ ("function".toList ++ z) =
          "async function".toList ++ z from by rw [af_decomp, List.append_assoc]]
        cases hsp : spaceIdentB z with
        | true =>
          have hcq : chosenQual ("async function".toList ++ z) =
              some ("async function".toList) := by
            rw [chosenQual, qualCands]
            rw [List.find?_cons_of_neg _ (qualAccepts_neg
              (not_prefixOf_of_append z (by decide) (by decide) :
                ("export async function".toList).isPrefixOf
                  ("async function".toList ++ z) = false))]
            rw [List.find?_cons_of_neg _ (qualAccepts_neg
              (not_prefixOf_of_append z (by decide) (by decide) :
                ("export function".toList).isPrefixOf
                  ("async function".toList ++ z) = false))]
            exact List.find?_cons_of_pos _ (by
              rw [qualAccepts, List.drop_left, isPrefixOf_append_self, hsp, Bool.and_self])
          rw [hcq]
          simp only [List.drop_left]
        | false =>
          have hcq : chosenQual ("async function".toList ++ z) = none :=
            chosenQual_none_of_roots
              (qualAccepts_false_of_npfx (not_prefixOf_of_append z (by decide) (by decide)))
              (qualAccepts_false_of_npfx (not_prefixOf_of_append z (by decide) (by decide)))
              (by rw [qualAccepts, List.drop_left, hsp, Bool.false_and])
              (qualAccepts_false_of_npfx (not_prefixOf_of_append z (by decide) (by decide)))
              (not_prefixOf_of_append z (by decide) (by decide))
              (not_prefixOf_of_append z (by decide) (by decide))
          rw [hcq]
          exact hk0 z hsp
      | false =>
        rw [matchLitK_neg k hFn]
        have hcq : chosenQual ("async ".toList ++ w2) = none :=
          chosenQual_none_of_roots
            (qualAccepts_false_of_npfx (not_prefixOf_of_append _ (by decide) (by decide)))
            (qualAccepts_false_of_npfx (not_prefixOf_of_append _ (by decide) (by decide)))
            (qualAccepts_false_of_npfx (by
              rw [af_decomp, append_isPrefixOf_append]
              exact hFn))
            (qualAccepts_false_of_npfx (not_prefixOf_of_append _ (by decide) (by decide)))
            (not_prefixOf_of_append _ (by decide) (by decide))
            (not_prefixOf_of_append _ (by decide) (by decide))
        rw [hcq]
    | false =>
      rw [matchLitK_neg _ hA2, firstSome_none_left]
      cases hFn : ("function".toList).isPrefixOf s with
      | true =>
        obtain ⟨z, rfl⟩ := isPrefixOf_eq_append hFn
        rw [matchLitK_neg _ (not_prefixOf_of_append z (by decide) (by decide) :
          ("public".toList).isPrefixOf ("function".toList ++ z) = false)]
        rw [matchLitK_neg _ (not_prefixOf_of_append z (by decide) (by decide) :
          ("private".toList).isPrefixOf ("function".toList ++ z) = false)]
        simp only [matchLitK_append, firstSome_none_left, firstSome_none_right]
        cases hsp : spaceIdentB z with
        | true =>
          have hcq : chosenQual ("function".toList ++ z) = some ("function".toList) := by
            rw [chosenQual, qualCands]
            rw [List.find?_cons_of_neg _ (qualAccepts_neg
              (not_prefixOf_of_append z (by decide) (by decide) :
                ("export async function".toList).isPrefixOf ("function".toList ++ z) = false))]
            rw [List.find?_cons_of_neg _ (qualAccepts_neg
              (not_prefixOf_of_append z (by decide) (by decide) :
                ("export function".toList).isPrefixOf ("function".toList ++ z) = false))]
            rw [List.find?_cons_of_neg _ (qualAccepts_neg
              (not_prefixOf_of_append z (by decide) (by decide) :
                ("async function".toList).isPrefixOf ("function".toList ++ z) = false))]
            exact List.find?_cons_of_pos _ (by
              rw [qualAccepts, List.drop_left, isPrefixOf_append_self, hsp, Bool.and_self])
          rw [hcq]
          simp only [List.drop_left]
        | false =>
          have hcq : chosenQual ("function".toList ++ z) = none :=
            chosenQual_none_of_roots
              (qualAccepts_false_of_npfx (not_prefixOf_of_append z (by decide) (by decide)))
              (qualAccepts_false_of_npfx (not_prefixOf_of_append z (by decide) (by decide)))
              (qualAccepts_false_of_npfx (not_prefixOf_of_append z (by decide) (by decide)))
              (by rw [qualAccepts, List.drop_left, hsp, Bool.false_and])
              (not_prefixOf_of_append z (by decide) (by decide))
              (not_prefixOf_of_append z (by decide) (by decide))
          rw [hcq]
          exact hk0 z hsp
      | false =>
        rw [matchLitK_neg k hFn, firstSome_none_left]
        cases hP : ("public".toList).isPrefixOf s with
        | true =>
          obtain ⟨zp, rfl⟩ := isPrefixOf_eq_append hP
          rw [matchLitK_neg _ (not_prefixOf_of_append zp (by decide) (by decide) :
            ("private".toList).isPrefixOf ("public".toList ++ zp) = false)]
          simp only [matchLitK_append, firstSome_none_right]
          rw [alt2Branch_eq2 k zp hk0 hk1, chosenQual_public zp]
          cases hec : extChoose zp with
          | some ext =>
            simp only [Option.map_some']
            rw [drop_len_append]
          | none => rfl
        | false =>
          rw [matchLitK_neg _ hP, firstSome_none_left]
          cases hPr : ("private".toList).isPrefixOf s with
          | true =>
            obtain ⟨zp, rfl⟩ := isPrefixOf_eq_append hPr
            simp only [matchLitK_append]
            rw [alt2Branch_eq2 k zp hk0 hk1, chosenQual_private zp]
            cases hec : extChoose zp with
            | some ext =>
              simp only [Option.map_some']
              rw [drop_len_append]
            | none => rfl
          | false =>
            rw [matchLitK_neg _ hPr]
            have hcq : chosenQual s = none :=
              chosenQual_none_of_roots
                (qualAccepts_false_of_npfx (by rw [eaf_decomp]; exact npfx_extend hE))
                (qualAccepts_false_of_npfx (by rw [ef_decomp]; exact npfx_extend hE))
                (qualAccepts_false_of_npfx (by rw [af_decomp]; exact npfx_extend hA2))
                (qualAccepts_false_of_npfx hFn)
                hP
                hPr
            rw [hcq]

theorem matchFUNCSTART_eq_alt (s : List Char) :
    matchFUNCSTART s = funcstartAlt s := by
  simp only [matchFUNCSTART]
  rw [show (fun s1 => matchLitK [spChar] s1 (fun s2 =>
      matchNameK s2 (fun nm s3 =>
        matchTailK s3 (fun s4 => some (s.length - s4.length, nm))))) =
      spaceName s.length from funext (K_eq s.length)]
  rw [matchQualK_eq (spaceName s.length) s
    (fun _ hp => spaceName_none_of_bad hp)
    (fun _ hp => spaceName_none_iff hp)]
  rw [funcstartAlt]

theorem head_dropWhile_false {p : Char → Bool} :
    ∀ (l : List Char) {x : Char} {xs : List Char},
      l.dropWhile p = x :: xs → p x = false := by
  intro l
  induction l with
  | nil => intro x xs h; simp at h
  | cons y ys ih =>
    intro x xs h
    rw [List.dropWhile_cons] at h
    by_cases hy : p y
    · rw [if_pos hy] at h
      exact ih h
    · rw [if_neg hy] at h
      cases h
      exact Bool.eq_false_iff.mpr hy

theorem takeWhile_append_stop {p : Char → Bool} (u : List Char) (x : Char)
    (v : List Char) (hu : ∀ y ∈ u, p y = true) (hx : p x = false) :
    (u ++ x :: v).takeWhile p = u := by
  rw [takeWhile_append_sat (x :: v) hu, List.takeWhile_cons, hx]
  simp

theorem tailSplit_build (m1 m2 tail : List Char)
    (h1 : ∀ x ∈ m1, notStopTail x = true)
    (h2 : ∀ x ∈ m2, notBraceTail x = true) :
    tailSplit (m1 ++ rparChar :: (m2 ++ lbrace :: tail)) = some tail := by
  simp only [tailSplit]
  rw [takeWhile_append_stop m1 rparChar (m2 ++ lbrace :: tail) h1 (by decide)]
  rw [List.drop_left]
  simp only []
  rw [if_pos trivial]
  rw [takeWhile_append_stop m2 lbrace tail h2 (by decide)]
  rw [List.drop_left]
  simp only []
  rw [if_pos trivial]

theorem tailSplit_decomp {q rr : List Char} (h : tailSplit q = some rr) :
    ∃ m1 m2, q = m1 ++ rparChar :: (m2 ++ lbrace :: rr) ∧
      (∀ x ∈ m1, notStopTail x = true) ∧ (∀ x ∈ m2, notBraceTail x = true) ∧
      m1 = q.takeWhile notStopTail := by
  simp only [tailSplit] at h
  cases hd1 : q.drop (q.takeWhile notStopTail).length with
  | nil => rw [hd1] at h; exact absurd h (by simp)
  | cons x r1 =>
    rw [hd1] at h
    simp only [] at h
    by_cases hx : x = rparChar
    · rw [if_pos hx] at h
      subst hx
      cases hd2 : r1.drop (r1.takeWhile notBraceTail).length with
      | nil => rw [hd2] at h; exact absurd h (by simp)
      | cons y r2 =>
        rw [hd2] at h
        simp only [] at h
        by_cases hy : y = lbrace
        · rw [if_pos hy] at h
          subst hy
          have hr2 : r2 = rr := by simpa using h
          subst hr2
          have hq : q = q.takeWhile notStopTail ++ (rparChar :: r1) := by
            conv_lhs => rw [← List.takeWhile_append_dropWhile notStopTail q]
            rw [← drop_takeWhile_len, hd1]
          have hr1 : r1 = r1.takeWhile notBraceTail ++ (lbrace :: r2) := by
            conv_lhs => rw [← List.takeWhile_append_dropWhile notBraceTail r1]
            rw [← drop_takeWhile_len, hd2]
          refine ⟨q.takeWhile notStopTail, r1.takeWhile notBraceTail, ?_,
            fun z hz => List.mem_takeWhile_imp hz,
            fun z hz => List.mem_takeWhile_imp hz, rfl⟩
          conv_lhs => rw [hq]
          conv_lhs => rw [hr1]
        · rw [if_neg hy] at h; exact absurd h (by simp)
    · rw [if_neg hx] at h; exact absurd h (by simp)

theorem find?_some_split {α : Type} {p : α → Bool} {l : List α} {a : α}
    (h : l.find? p = some a) :
    ∃ l1 l2, l = l1 ++ a :: l2 ∧ (∀ x ∈ l1, p x = false) ∧ p a = true := by
  induction l with
  | nil => simp at h
  | cons hd tl ih =>
    by_cases php : p hd = true
    · rw [List.find?_cons_of_pos _ php] at h
      cases h
      exact ⟨[], tl, rfl, by simp, php⟩
    · rw [List.find?_cons_of_neg _ php] at h
      obtain ⟨l1, l2, heq, hall, hpa⟩ := ih h
      exact ⟨hd :: l1, l2, by rw [heq, List.cons_append], by
        intro x hx
        rcases List.mem_cons.mp hx with rfl | hx2
        · exact Bool.eq_false_iff.mpr php
        · exact hall x hx2, hpa⟩

theorem find?_append_first {α : Type} {p : α → Bool} (l1 l2 : List α) (a : α)
    (h1 : ∀ x ∈ l1, p x = false) (ha : p a = true) :
    (l1 ++ a :: l2).find? p = some a := by
  induction l1 with
  | nil => exact List.find?_cons_of_pos _ ha
  | cons hd tl ih =>
    rw [List.cons_append,
      List.find?_cons_of_neg _ (neg_of_eq_false (h1 hd (List.mem_cons_self hd tl)))]
    exact ih (fun x hx => h1 x (List.mem_cons_of_mem hd hx))

theorem qualAccepts_mono {t r q : List Char} (h : qualAccepts t q = true) :
    qualAccepts (t ++ r) q = true := by
  rw [qualAccepts, Bool.and_eq_true] at h
  obtain ⟨hsp, hpfx⟩ := h
  obtain ⟨w, rfl⟩ := isPrefixOf_eq_append hpfx
  rw [List.drop_left] at hsp
  rw [qualAccepts, List.append_assoc, List.drop_left, isPrefixOf_append_self,
    Bool.and_true]
  cases w with
  | nil => exact absurd hsp (by simp [spaceIdentB])
  | cons x w1 =>
    cases w1 with
    | nil => exact absurd hsp (by simp [spaceIdentB])
    | cons c w2 =>
      simp only [spaceIdentB] at hsp
      simpa [List.cons_append, spaceIdentB] using hsp

theorem chosenQual_prefix_transfer {t Q : List Char} (r : List Char)
    (hs : chosenQual (t ++ r) = some Q) (hacc : qualAccepts t Q = true) :
    chosenQual t = some Q := by
  have hfind : qualCands.find? (qualAccepts (t ++ r)) = some Q := hs
  obtain ⟨l1, l2, hqc, hl1, _⟩ := find?_some_split hfind
  show qualCands.find? (qualAccepts t) = some Q
  rw [hqc]
  apply find?_append_first
  · intro x hx
    cases hb : qualAccepts t x with
    | false => rfl
    | true => exact absurd (qualAccepts_mono hb) (neg_of_eq_false (hl1 x hx))
  · exact hacc

theorem funcstartAlt_pre {Q tk m1 m2 : List Char} {c : Char}
    (hc : isIdentStart c = true)
    (htk : ∀ x ∈ tk, isIdentChar x = true)
    (hm1 : ∀ x ∈ m1, notStopTail x = true)
    (hm2 : ∀ x ∈ m2, notBraceTail x = true)
    (hhead : isIdentChar ((m1 ++ rparChar :: (m2 ++ [lbrace])).headD spChar) = false)
    (hchosen : chosenQual
      (Q ++ spChar :: c :: (tk ++ (m1 ++ rparChar :: (m2 ++ [lbrace])))) = some Q) :
    funcstartAlt (Q ++ spChar :: c :: (tk ++ (m1 ++ rparChar :: (m2 ++ [lbrace])))) =
      some ((Q ++ spChar :: c :: (tk ++ (m1 ++ rparChar :: (m2 ++ [lbrace])))).length,
        c :: tk) := by
  rw [funcstartAlt, hchosen]
  simp only []
  rw [List.drop_left]
  simp only [spaceName]
  rw [if_pos trivial, if_pos hc]
  have htw : (tk ++ (m1 ++ rparChar :: (m2 ++ [lbrace]))).takeWhile isIdentChar
      = tk := by
    cases hm : m1 with
    | nil =>
      simp only [List.nil_append]
      exact takeWhile_append_stop tk rparChar _ htk (by decide)
    | cons xm m1x =>
      rw [hm] at hhead
      simp only [List.cons_append, List.headD_cons] at hhead
      rw [List.cons_append]
      exact takeWhile_append_stop tk xm _ htk hhead
  rw [htw, List.drop_left]
  rw [tailSplit_build m1 m2 [] hm1 hm2]
  simp

theorem funcstartAlt_take {s : List Char} {n : Nat} {nm : List Char}
    (h : funcstartAlt s = some (n, nm)) :
    funcstartAlt (s.take n) = some (n, nm) ∧ nm ≠ [] ∧ lbrace ∈ s.take n := by
  rw [funcstartAlt] at h
  cases hcq : chosenQual s with
  | none => rw [hcq] at h; exact absurd h (by simp)
  | some Q =>
    rw [hcq] at h
    simp only [] at h
    have hfind : qualCands.find? (qualAccepts s) = some Q := hcq
    have hQacc : qualAccepts s Q = true := List.find?_some hfind
    have hQpfx : Q.isPrefixOf s = true := (Bool.and_eq_true _ _ |>.mp hQacc).2
    obtain ⟨w, hw⟩ := isPrefixOf_eq_append hQpfx
    have hdrop : s.drop Q.length = w := by rw [hw, List.drop_left]
    rw [hdrop] at h
    cases w with
    | nil => exact absurd h (by simp [spaceName])
    | cons x w1 =>
      simp only [spaceName] at h
      by_cases hx : x = spChar
      case neg => rw [if_neg hx] at h; exact absurd h (by simp)
      rw [if_pos hx] at h
      subst hx
      cases w1 with
      | nil => exact absurd h (by simp)
      | cons c rest =>
        simp only [] at h
        by_cases hc : isIdentStart c
        case neg => rw [if_neg hc] at h; exact absurd h (by simp)
        rw [if_pos hc] at h
        cases hts : tailSplit (rest.drop (rest.takeWhile isIdentChar).length) with
        | none => rw [hts] at h; exact absurd h (by simp)
        | some rr =>
          rw [hts] at h
          simp only [Option.some.injEq, Prod.mk.injEq] at h
          obtain ⟨hn, hnm⟩ := h
          obtain ⟨m1, m2, hqe, hm1, hm2, _⟩ := tailSplit_decomp hts
          have hrest : rest = rest.takeWhile isIdentChar ++
              (m1 ++ rparChar :: (m2 ++ lbrace :: rr)) := by
            conv_lhs => rw [← List.takeWhile_append_dropWhile isIdentChar rest]
            rw [← drop_takeWhile_len, hqe]
          have hhead : isIdentChar ((m1 ++ rparChar ::
              (m2 ++ [lbrace])).headD spChar) = false := by
            have hdw : rest.dropWhile isIdentChar =
                m1 ++ rparChar :: (m2 ++ lbrace :: rr) := by
              rw [← drop_takeWhile_len, hqe]
            cases hm : m1 with
            | nil => simp only [List.nil_append, List.headD_cons]; decide
            | cons xm m1x =>
              rw [hm] at hdw
              simp only [List.cons_append] at hdw
              simp only [List.cons_append, List.headD_cons]
              exact head_dropWhile_false rest hdw
          have hs2 : s = (Q ++ spChar :: c ::
              (rest.takeWhile isIdentChar ++ (m1 ++ rparChar :: (m2 ++ [lbrace]))))
              ++ rr := by
            rw [hw]
            conv_lhs => rw [hrest]
            simp [List.append_assoc, List.cons_append]
          have hlen : (Q ++ spChar :: c :: (rest.takeWhile isIdentChar ++
              (m1 ++ rparChar :: (m2 ++ [lbrace])))).length = n := by
            rw [← hn, hs2]
            simp only [List.length_append]
            omega
          have htake : s.take n = Q ++ spChar :: c ::
              (rest.takeWhile isIdentChar ++ (m1 ++ rparChar :: (m2 ++ [lbrace]))) := by
            rw [hs2, ← hlen, List.take_left]
          have hchosen2 : chosenQual (Q ++ spChar :: c ::
              (rest.takeWhile isIdentChar ++ (m1 ++ rparChar :: (m2 ++ [lbrace]))))
              = some Q := by
            refine chosenQual_prefix_transfer rr ?_ ?_
            · rw [← hs2]; exact hcq
            · rw [qualAccepts, List.drop_left, isPrefixOf_append_self, Bool.and_true]
              simp [spaceIdentB, hc]
          refine ⟨?_, ?_, ?_⟩
          · rw [htake]
            rw [funcstartAlt_pre hc (fun y hy => List.mem_takeWhile_imp hy)
              hm1 hm2 hhead hchosen2]
            rw [hlen, hnm]
          · rw [← hnm]; simp
          · rw [htake]; simp

theorem tryMatchAt_funcstart {s2 : List Char} {n : Nat}
    (h : tryMatchAt s2 = some (TKind.FUNCSTART, n)) :
    ∃ nm, matchFUNCSTART s2 = some (n, nm) := by
  simp only [tryMatchAt] at h
  cases hIG : matchIGNORE s2 with
  | some m => simp only [hIG] at h; exact absurd h (by simp)
  | none =>
    simp only [hIG] at h
    cases hFS : matchFUNCSTART s2 with
    | some p =>
      obtain ⟨n2, nm⟩ := p
      simp only [hFS] at h
      have hn2 : n2 = n := by simpa using h
      subst hn2
      exact ⟨nm, rfl⟩
    | none =>
      simp only [hFS] at h
      cases hID : matchIDENTIFIER s2 with
      | some m => simp only [hID] at h; exact absurd h (by simp)
      | none =>
        simp only [hID] at h
        cases hOP : matchCHAR lbrace s2 with
        | some m => simp only [hOP] at h; exact absurd h (by simp)
        | none =>
          simp only [hOP] at h
          cases hCP : matchCHAR rbrace s2 with
          | some m => simp only [hCP] at h; exact absurd h (by simp)
          | none =>
            simp only [hCP] at h
            cases hNL : matchCHAR nlChar s2 with
            | some m => simp only [hNL] at h; exact absurd h (by simp)
            | none => simp only [hNL] at h; exact absurd h (by simp)

theorem finditer_funcstart {rt : RawTok} :
    ∀ (fuel pos : Nat) (s : List Char), rt ∈ finditer fuel pos s →
      rt.kind = TKind.FUNCSTART →
      ∃ s2 n nm, matchFUNCSTART s2 = some (n, nm) ∧
        rt.value = String.mk (s2.take n) := by
  intro fuel
  induction fuel with
  | zero => intro pos s h _; simp [finditer] at h
  | succ f ih =>
    intro pos s h hk
    cases s with
    | nil => simp [finditer] at h
    | cons a tail =>
      rw [finditer] at h
      cases hm : tryMatchAt (a :: tail) with
      | some kn =>
        obtain ⟨k, n⟩ := kn
        rw [hm] at h
        simp only [] at h
        rcases List.mem_cons.mp h with rfl | htail
        · have hk2 : k = TKind.FUNCSTART := hk
          subst hk2
          obtain ⟨nm, hFS⟩ := tryMatchAt_funcstart hm
          exact ⟨a :: tail, n, nm, hFS, rfl⟩
        · exact ih (pos + n) ((a :: tail).drop n) htail hk
      | none =>
        rw [hm] at h
        simp only [] at h
        exact ih (pos + 1) tail h hk

/-- C10: for every token the lexer classifies as `FUNCSTART`, re-applying the
`FUNCSTART` pattern to the token's text from its start succeeds with a
non-empty `funcname` capture (so the name extraction in `FuncStartState`
cannot fail and the malformed-head branch is unreachable), and the matched
text contains `{`, so the `paren_level` the state assigns,
`1 if '\x7b' in value else 0`, is always `1` and the depth-0 branch is dead. -/
theorem C10_funcstart_rematch (content : String) (rt : RawTok)
    (hmem : rt ∈ lexAll content.toList) (hk : rt.kind = TKind.FUNCSTART) :
    ∃ nm, extractName rt.value = some nm ∧ nm ≠ "" ∧
      rt.value.toList.contains lbrace = true ∧
      (if rt.value.toList.contains lbrace then (1 : Int) else 0) = 1 := by
  obtain ⟨s2, n, nm0, hFS, hval⟩ :=
    finditer_funcstart content.toList.length 0 content.toList hmem hk
  have halt : funcstartAlt s2 = some (n, nm0) := by
    rw [← matchFUNCSTART_eq_alt]; exact hFS
  obtain ⟨hstab, hne, hbr⟩ := funcstartAlt_take halt
  have hFS2 : matchFUNCSTART (s2.take n) = some (n, nm0) := by
    rw [matchFUNCSTART_eq_alt]; exact hstab
  have htl : rt.value.toList = s2.take n := by rw [hval]; rfl
  have hcont : rt.value.toList.contains lbrace = true := by
    rw [htl]; exact List.elem_eq_true_of_mem hbr
  refine ⟨String.mk nm0, ?_, ?_, hcont, ?_⟩
  · rw [extractName, htl, hFS2]
    rfl
  · intro hcontra
    apply hne
    have hdata : (String.mk nm0).data = ("" : String).data := by rw [hcontra]
    simpa using hdata
  · rw [hcont]
    simp

/-- Witness: in the file text `function f(){}` the lexer emits the
`FUNCSTART` token `function f(){` at offset 0; re-matching extracts the
non-empty name `f`, the text contains `{`, and the assigned depth is 1. -/
theorem C10_funcstart_rematch_witness :
    ((⟨TKind.FUNCSTART, "function f()\x7b", 0⟩ : RawTok) ∈
      lexAll ("function f()\x7b\x7d".toList)) ∧
    (⟨TKind.FUNCSTART, "function f()\x7b", 0⟩ : RawTok).kind = TKind.FUNCSTART ∧
    (∃ nm, extractName (⟨TKind.FUNCSTART, "function f()\x7b", 0⟩ : RawTok).value =
        some nm ∧ nm ≠ "" ∧
      (⟨TKind.FUNCSTART, "function f()\x7b", 0⟩ : RawTok).value.toList.contains
        lbrace = true ∧
      (if (⟨TKind.FUNCSTART, "function f()\x7b", 0⟩ :
          RawTok).value.toList.contains lbrace then (1 : Int) else 0) = 1) :=
  ⟨by decide, by decide,
    C10_funcstart_rematch "function f()\x7b\x7d"
      ⟨TKind.FUNCSTART, "function f()\x7b", 0⟩ (by decide) (by decide)⟩

end RegexLemmas

end MapTs
